import Mathlib

/-!
# Verification of the transcript quote-relocation engine

Shallow embedding of the quote matching/relocation core: text normalization,
n-gram Jaccard similarity, Boyer-Moore-Horspool search, transcript index
construction, the three-strategy matcher `findTextInTranscript` with its
coordinate mappers, and the per-quote orchestrator modelled from
`findExactQuotes`.

Strings are modelled as `List Char` (one element per source-string code unit
for the inputs considered here); JS numbers used as times or scores are
modelled as `ℚ`; character offsets, which the source computes by possibly
negative subtraction, are modelled as `ℤ`; segment indices are `ℕ`.
A JS value that may be `null` is modelled as an `Option`.
-/

set_option maxRecDepth 4000

attribute [local semireducible] Rat.mul Rat.inv Rat.add

/-- Whitespace as matched by the source's regex `\s` (ASCII whitespace plus
no-break space; the inputs considered contain no exotic Unicode spaces). -/
def isJsSpace (c : Char) : Bool :=
  c = ' ' || c = '\t' || c = '\n' || c = '\r' || c = '\x0b' || c = '\x0c' || c = ' '

/-- The punctuation characters stripped by `normalizeForMatching`; the source
character class contains (with repetitions) `.` `,` `?` `"` `'` `!` and the
em dash, horizontal ellipsis and en dash. -/
def isStrippedPunct (c : Char) : Bool :=
  c = '.' || c = ',' || c = '?' || c = '"' || c = '\'' || c = '!' ||
  c = '—' || c = '…' || c = '–'

theorem length_dropWhile_le (p : Char → Bool) (l : List Char) :
    (l.dropWhile p).length ≤ l.length := by
  induction l with
  | nil => simp
  | cons c cs ih =>
    rw [List.dropWhile]
    split
    · simp only [List.length_cons]; omega
    · simp

/-- Character scan behind `replace(/X+/g, r)`: `inRun` records whether the
previous character belonged to a run of the class `X` (so that the run
contributes a single `r`). -/
def collapseRunsAux (p : Char → Bool) (r : Char) (inRun : Bool) :
    List Char → List Char
  | [] => []
  | c :: cs =>
    if p c then
      if inRun then collapseRunsAux p r true cs
      else r :: collapseRunsAux p r true cs
    else c :: collapseRunsAux p r false cs

/-- Replace every maximal run of characters satisfying `p` by the single
character `r`; this is `replace(/X+/g, r)` for a character class `X`. -/
def collapseRuns (p : Char → Bool) (r : Char) (l : List Char) : List Char :=
  collapseRunsAux p r false l

/-- JS `String.prototype.trim`: strip whitespace from both ends. -/
def trimWs (l : List Char) : List Char :=
  ((l.dropWhile isJsSpace).reverse.dropWhile isJsSpace).reverse

/-- Is `c` a carriage return or line feed (the class `[\r\n]`). -/
def isCrLf (c : Char) : Bool := c = '\r' || c = '\n'

/-- JS `toLowerCase` restricted to the (ASCII-per-character) strings considered. -/
def jsToLower (c : Char) : Char := c.toLower

/-- `normalizeWhitespace`: newline runs to spaces, collapse whitespace, trim. -/
def normalizeWhitespace (text : List Char) : List Char :=
  trimWs (collapseRuns isJsSpace ' ' (collapseRuns isCrLf ' ' text))

/-- `normalizeForMatching`: lowercase, strip punctuation, collapse whitespace, trim. -/
def normalizeForMatching (text : List Char) : List Char :=
  trimWs (collapseRuns isJsSpace ' '
    ((text.map jsToLower).filter (fun c => !(isStrippedPunct c))))

/-- The list of all contiguous 3-character substrings of `clean`
(`for (let i = 0; i <= clean.length - 3; i++)`; the loop body never runs
when the length is below 3 because the JS bound is then negative). -/
def ngramList (clean : List Char) : List (List Char) :=
  if clean.length < 3 then []
  else (List.range (clean.length - 2)).map (fun i => (clean.drop i).take 3)

/-- JS `Set` filled by iterated `add`: keep the first occurrence of each
element, in insertion order (`seen` holds the elements already present). -/
def jsDedupAux (seen : List (List Char)) : List (List Char) → List (List Char)
  | [] => []
  | g :: rest =>
    if g ∈ seen then jsDedupAux seen rest
    else g :: jsDedupAux (g :: seen) rest

/-- The elements of a JS `Set` built from `l`, in insertion order. -/
def jsDedup (l : List (List Char)) : List (List Char) :=
  jsDedupAux [] l

/-- The set of 3-grams of `clean` (JS `Set` semantics: repeats count once),
as its ordered element list. -/
def ngramSet (clean : List Char) : List (List Char) :=
  jsDedup (ngramList clean)

/-- JS `String.prototype.includes`: `sub` occurs contiguously in `t`. -/
def jsIncludes (t sub : List Char) : Bool :=
  (List.range (t.length + 1)).any (fun i => (t.drop i).take sub.length == sub)

/-- `calculateNgramSimilarity`: n-gram Jaccard similarity with a containment
fallback for strings too short to have 3-grams. The intersection loop
(`for (const ngram of ngrams1) if (ngrams2.has(ngram)) intersection++`)
is a count over the first set's elements. -/
def calculateNgramSimilarity (str1 str2 : List Char) : ℚ :=
  if str1.length = 0 ∨ str2.length = 0 then 0
  else
    let clean1 := str1.filter (fun c => !(isJsSpace c))
    let clean2 := str2.filter (fun c => !(isJsSpace c))
    let ngrams1 := ngramSet clean1
    let ngrams2 := ngramSet clean2
    if ngrams1.length = 0 ∨ ngrams2.length = 0 then
      if jsIncludes clean1 clean2 || jsIncludes clean2 clean1 then 4/5 else 0
    else
      let intersection := ngrams1.countP (fun g => decide (g ∈ ngrams2))
      let union := ngrams1.length + ngrams2.length - intersection
      (intersection : ℚ) / (union : ℚ)

/-- The final state of the bad-character table built by
`for (let i = 0; i < pattern.length - 1; i++) badChar.set(pattern[i], ...)`:
for character `c` the surviving entry comes from the largest index below `n`
holding `c`. `lastIdxBefore p c n` is that index, if any. -/
def lastIdxBefore (p : List Char) (c : Char) : Nat → Option Nat
  | 0 => none
  | n + 1 => if p.get? n = some c then some n else lastIdxBefore p c n

/-- Skip distance of Boyer-Moore-Horspool for text character `c`:
the table entry `pattern.length - 1 - i` when present, else `pattern.length`. -/
def badCharSkip (p : List Char) (c : Char) : Nat :=
  match lastIdxBefore p c (p.length - 1) with
  | some idx => p.length - 1 - idx
  | none => p.length

theorem lastIdxBefore_lt {p : List Char} {c : Char} {n idx : Nat}
    (h : lastIdxBefore p c n = some idx) : idx < n := by
  induction n with
  | zero => simp [lastIdxBefore] at h
  | succ n ih =>
    simp only [lastIdxBefore] at h
    split at h
    · cases h; omega
    · exact Nat.lt_succ_of_lt (ih h)

theorem lastIdxBefore_mem {p : List Char} {c : Char} {n idx : Nat}
    (h : lastIdxBefore p c n = some idx) : p.get? idx = some c := by
  induction n with
  | zero => simp [lastIdxBefore] at h
  | succ n ih =>
    simp only [lastIdxBefore] at h
    split at h
    · cases h; assumption
    · exact ih h

theorem lastIdxBefore_max {p : List Char} {c : Char} {n idx m : Nat}
    (h : lastIdxBefore p c n = some idx) (hm : m < n) (hc : p.get? m = some c) :
    m ≤ idx := by
  induction n with
  | zero => simp [lastIdxBefore] at h
  | succ n ih =>
    simp only [lastIdxBefore] at h
    split at h
    · cases h; omega
    · rcases Nat.lt_succ_iff_lt_or_eq.mp hm with h' | h'
      · exact ih h h'
      · subst h'; simp_all

theorem lastIdxBefore_none {p : List Char} {c : Char} {n m : Nat}
    (h : lastIdxBefore p c n = none) (hm : m < n) : p.get? m ≠ some c := by
  induction n with
  | zero => omega
  | succ n ih =>
    simp only [lastIdxBefore] at h
    split at h
    · cases h
    · rcases Nat.lt_succ_iff_lt_or_eq.mp hm with h' | h'
      · exact ih h h'
      · subst h'; assumption

theorem badCharSkip_pos {p : List Char} (hp : 0 < p.length) (c : Char) :
    0 < badCharSkip p c := by
  unfold badCharSkip
  split
  · next idx h => have := lastIdxBefore_lt h; omega
  · omega

theorem badCharSkip_le (p : List Char) (c : Char) : badCharSkip p c ≤ p.length := by
  unfold badCharSkip
  split
  · omega
  · omega

/-- The right-to-left comparison loop of an alignment: compare `t` at `k`
downward against `p` at `j` downward (`while (j >= 0 && k >= 0 && ...)`;
as invoked, `j ≤ k` so the `k >= 0` guard never fires on its own). -/
def scanBack (t p : List Char) : Nat → Nat → Bool
  | k, 0 => t.get? k == p.get? 0
  | k, j + 1 => (t.get? k == p.get? (j + 1)) && scanBack t p (k - 1) j

/-- `p` occurs in `t` starting at position `s`. -/
def occursAt (t p : List Char) (s : Nat) : Prop :=
  ∀ d < p.length, t.get? (s + d) = p.get? d

instance (t p : List Char) (s : Nat) : Decidable (occursAt t p s) :=
  Nat.decidableBallLT _ _

/-- The alignment loop of Boyer-Moore-Horspool: `i` is the text index aligned
with the last pattern character; on mismatch shift by the bad-character skip
for `text[i]` (the source's `i < text.length` test is always true here).
`fuel` only bounds the iteration count for structural recursion; it is
supplied large enough that the `i < t.length` exit always fires first
(each shift advances `i` by at least one), as the correctness theorem
confirms by never reaching the fuel case. -/
def bmLoop (t p : List Char) : Nat → Nat → Int
  | 0, _ => -1
  | fuel + 1, i =>
    if i < t.length then
      if scanBack t p i (p.length - 1) then ((i - (p.length - 1) : Nat) : Int)
      else bmLoop t p fuel (i + badCharSkip p (t.getD i ' '))
    else -1

/-- `boyerMooreSearch`: leftmost occurrence of `pattern` in `text`, or `-1`. -/
def boyerMooreSearch (text pattern : List Char) : Int :=
  if pattern.length = 0 then 0
  else if pattern.length > text.length then -1
  else bmLoop text pattern (text.length + 1) (pattern.length - 1)

/-- A transcript segment: `start`/`duration` in seconds, plus its text. -/
structure Segment where
  start : ℚ
  duration : ℚ
  text : List Char
deriving DecidableEq

/-- A record of `segmentBoundaries`: the segment's interval in `fullTextSpace`
coordinates together with its original and normalized text. -/
structure Boundary where
  segmentIdx : Nat
  startPos : Nat
  endPos : Nat
  text : List Char
  normalizedText : List Char
deriving DecidableEq

/-- `wordIndex`: normalized word to list of segment indices (with repeats),
as an association list standing for the JS `Map` (only lookups observe it). -/
abbrev WordIndex := List (List Char × List Nat)

/-- `ngramIndex`: 3-gram to set of segment indices (`Set` modelled as a
duplicate-free list in insertion order). -/
abbrev NgramIndex := List (List Char × List Nat)

/-- The immutable transcript index. -/
structure TranscriptIndex where
  fullTextSpace : List Char
  fullTextNewline : List Char
  normalizedText : List Char
  segmentBoundaries : List Boundary
  wordIndex : WordIndex
  ngramIndex : NgramIndex
deriving DecidableEq

/-- `positions.push(idx)` under `wordIndex.set(word, positions)`: append `idx`
to the posting list of `w`, creating the entry if absent. -/
def pushPosting : WordIndex → List Char → Nat → WordIndex
  | [], w, idx => [(w, [idx])]
  | (k, ps) :: rest, w, idx =>
    if k = w then (k, ps ++ [idx]) :: rest
    else (k, ps) :: pushPosting rest w idx

/-- `wordIndex.get(word) || []`. -/
def lookupPosting : WordIndex → List Char → List Nat
  | [], _ => []
  | (k, ps) :: rest, w => if k = w then ps else lookupPosting rest w

/-- `ngramIndex.get(ngram).add(idx)` with `Set` semantics. -/
def addToSet : NgramIndex → List Char → Nat → NgramIndex
  | [], g, idx => [(g, [idx])]
  | (k, s) :: rest, g, idx =>
    if k = g then (k, if idx ∈ s then s else s ++ [idx]) :: rest
    else (k, s) :: addToSet rest g idx

/-- Character scan behind `split(/\s+/)`: `skipMode` records whether the
previous character was whitespace (so that a whole run yields one split),
`acc` the pending chunk in reverse. -/
def splitWsAux (skipMode : Bool) (acc : List Char) :
    List Char → List (List Char)
  | [] => [acc.reverse]
  | c :: cs =>
    if isJsSpace c then
      if skipMode then splitWsAux true [] cs
      else acc.reverse :: splitWsAux true [] cs
    else splitWsAux false (c :: acc) cs

/-- JS `split(/\s+/)`: split at maximal whitespace runs; a leading run yields
a leading empty chunk, and the empty string yields one empty chunk. -/
def splitWs (l : List Char) : List (List Char) :=
  splitWsAux false [] l

/-- The running state of the `transcript.forEach` loop in `buildTranscriptIndex`. -/
structure BuildState where
  fullTextSpace : List Char
  fullTextNewline : List Char
  normalizedText : List Char
  segmentBoundaries : List Boundary
  wordIndex : WordIndex
  ngramIndex : NgramIndex

/-- One iteration of the `forEach` body of `buildTranscriptIndex`. -/
def buildStep (st : BuildState) (idx : Nat) (segment : Segment) : BuildState :=
  let st0 : BuildState :=
    if 0 < idx then
      { st with fullTextSpace := st.fullTextSpace ++ [' '],
                fullTextNewline := st.fullTextNewline ++ ['\n'],
                normalizedText := st.normalizedText ++ [' '] }
    else st
  let segmentStartPos := st0.fullTextSpace.length
  let segmentNormalized := normalizeForMatching segment.text
  let fullS := st0.fullTextSpace ++ segment.text
  let words := splitWs segmentNormalized
  let wi := words.foldl
    (fun m w => if 2 < w.length then pushPosting m w idx else m) st0.wordIndex
  let cleanText := segmentNormalized.filter (fun c => !(isJsSpace c))
  let ni := (ngramList cleanText).foldl (fun m g => addToSet m g idx) st0.ngramIndex
  { fullTextSpace := fullS
    fullTextNewline := st0.fullTextNewline ++ segment.text
    normalizedText := st0.normalizedText ++ segmentNormalized
    segmentBoundaries := st0.segmentBoundaries ++
      [⟨idx, segmentStartPos, fullS.length, segment.text, segmentNormalized⟩]
    wordIndex := wi
    ngramIndex := ni }

/-- The `forEach` loop, with the running index made explicit. -/
def buildAux (st : BuildState) (idx : Nat) : List Segment → BuildState
  | [] => st
  | s :: rest => buildAux (buildStep st idx s) (idx + 1) rest

/-- `buildTranscriptIndex`. -/
def buildTranscriptIndex (transcript : List Segment) : TranscriptIndex :=
  let st := buildAux ⟨[], [], [], [], [], []⟩ 0 transcript
  ⟨st.fullTextSpace, st.fullTextNewline, st.normalizedText,
   st.segmentBoundaries, st.wordIndex, st.ngramIndex⟩

/-- The defaulted options of `findTextInTranscript` (the `strategy` option is
destructured nowhere in the body, so it is omitted). -/
structure FindOptions where
  startIdx : Nat
  minSimilarity : ℚ
  maxSegmentWindow : Nat
deriving DecidableEq

/-- Default option values: `startIdx = 0`,
`minSimilarity = QUOTE_MATCH_CONFIG.FUZZY_MATCH_THRESHOLD = 0.85`,
`maxSegmentWindow = 30`. -/
def defaultFindOptions : FindOptions := ⟨0, 17/20, 30⟩

/-- The match strategies (`'exact' | 'normalized' | 'fuzzy-ngram'` strings). -/
inductive MatchStrategy
  | exact
  | normalized
  | fuzzyNgram
deriving DecidableEq

/-- The record returned by `findTextInTranscript`. -/
structure MatchResult where
  found : Bool
  startSegmentIdx : Nat
  endSegmentIdx : Nat
  startCharOffset : Int
  endCharOffset : Int
  matchStrategy : MatchStrategy
  similarity : ℚ
  confidence : ℚ
deriving DecidableEq

/-- The span part of a mapper's result (its `-1` sentinels become `none`). -/
structure SegSpan where
  found : Bool
  startSegmentIdx : Nat
  endSegmentIdx : Nat
  startCharOffset : Int
  endCharOffset : Int
deriving DecidableEq

/-- The boundary walk of `mapMatchToSegments`: the two mutable slots
(`startSegmentIdx`/`startCharOffset` and `endSegmentIdx`/`endCharOffset`,
initialized to the `-1` sentinel, here `none`) threaded through the loop,
which breaks at the first boundary containing the match end. -/
def mapMatchWalk (matchStart matchEnd : Nat)
    (startAcc endAcc : Option (Nat × Int)) :
    List Boundary → Option (Nat × Int) × Option (Nat × Int)
  | [] => (startAcc, endAcc)
  | b :: rest =>
    let startAcc' :=
      if startAcc = none ∧ b.startPos ≤ matchStart ∧ matchStart < b.endPos
      then some (b.segmentIdx, (matchStart : Int) - (b.startPos : Int))
      else startAcc
    if b.startPos < matchEnd ∧ matchEnd ≤ b.endPos then
      (startAcc', some (b.segmentIdx, (matchEnd : Int) - (b.startPos : Int)))
    else if b.endPos < matchEnd then
      mapMatchWalk matchStart matchEnd startAcc'
        (some (b.segmentIdx, (b.text.length : Int))) rest
    else
      mapMatchWalk matchStart matchEnd startAcc' endAcc rest

/-- `mapMatchToSegments`. -/
def mapMatchToSegments (matchStart matchLength : Nat) (index : TranscriptIndex) :
    Option SegSpan :=
  match mapMatchWalk matchStart (matchStart + matchLength) none none
      index.segmentBoundaries with
  | (some (si, so), some (ei, eo)) => some ⟨true, si, ei, so, eo⟩
  | _ => none

/-- The boundary walk of `mapNormalizedMatchToSegments`, threading
`currentNormPos` (each segment contributes its normalized length plus one
joining space). -/
def mapNormWalk (matchIdx matchEnd : Nat) (currentNormPos : Nat)
    (startAcc : Option (Nat × Int)) :
    List Boundary → Option (Nat × Int) × Option (Nat × Int)
  | [] => (startAcc, none)
  | b :: rest =>
    let segNormEnd := currentNormPos + b.normalizedText.length
    let startAcc' :=
      if startAcc = none ∧ currentNormPos ≤ matchIdx ∧ matchIdx < segNormEnd
      then some (b.segmentIdx,
        min ((matchIdx : Int) - (currentNormPos : Int)) ((b.text.length : Int) - 1))
      else startAcc
    if currentNormPos < matchEnd ∧ matchEnd ≤ segNormEnd then
      (startAcc', some (b.segmentIdx,
        min ((matchEnd : Int) - (currentNormPos : Int)) ((b.text.length : Int))))
    else
      mapNormWalk matchIdx matchEnd (segNormEnd + 1) startAcc' rest

/-- `mapNormalizedMatchToSegments`. -/
def mapNormalizedMatchToSegments (normalizedMatchIdx : Nat)
    (normalizedTargetText : List Char) (index : TranscriptIndex) :
    Option SegSpan :=
  match mapNormWalk normalizedMatchIdx
      (normalizedMatchIdx + normalizedTargetText.length) 0 none
      index.segmentBoundaries with
  | (some (si, so), some (ei, eo)) => some ⟨true, si, ei, so, eo⟩
  | _ => none

/-- `transcript[i]` for an index known to be in range (out-of-range access
never happens on the paths taken; the default is immaterial). -/
def segAt (transcript : List Segment) (i : Nat) : Segment :=
  transcript.getD i ⟨0, 0, []⟩

/-- `transcript[i].text`. -/
def segTextAt (transcript : List Segment) (i : Nat) : List Char :=
  (segAt transcript i).text

/-- The query tokenization of the fuzzy stage:
`normalizeForMatching(targetText).split(/\s+/).filter(w => w.length > 2)`. -/
def fuzzyTargetWords (targetText : List Char) : List (List Char) :=
  (splitWs (normalizeForMatching targetText)).filter (fun w => 2 < w.length)

/-- `segmentScores.set(segIdx, (segmentScores.get(segIdx) || 0) + 1)`:
a JS `Map` keeps the original insertion position of an updated key and
appends new keys. -/
def bumpScore : List (Nat × Nat) → Nat → List (Nat × Nat)
  | [], k => [(k, 1)]
  | (k', v) :: rest, k =>
    if k' = k then (k', v + 1) :: rest
    else (k', v) :: bumpScore rest k

/-- The vote-tally loop of the fuzzy stage: for each query token, walk its
posting list and bump the score of every listed segment at or after
`startIdx`. -/
def fuzzyScores (wordIdx : WordIndex) (targetWords : List (List Char))
    (startIdx : Nat) : List (Nat × Nat) :=
  targetWords.foldl
    (fun scores word =>
      (lookupPosting wordIdx word).foldl
        (fun sc segIdx => if startIdx ≤ segIdx then bumpScore sc segIdx else sc)
        scores)
    []

/-- Stable insertion keeping scores in descending order (the JS
`sort((a, b) => b[1] - a[1])` is a stable descending sort by score). -/
def insertByScoreDesc (x : Nat × Nat) : List (Nat × Nat) → List (Nat × Nat)
  | [] => [x]
  | y :: ys => if y.2 < x.2 then x :: y :: ys else y :: insertByScoreDesc x ys

/-- Stable descending sort by score. -/
def sortByScoreDesc (l : List (Nat × Nat)) : List (Nat × Nat) :=
  l.foldl (fun acc x => insertByScoreDesc x acc) []

/-- The window-growing loop of the fuzzy stage for one candidate: starting at
`windowStart`, append segment texts (with a joining space after the first)
and return as soon as the n-gram similarity reaches `minSimilarity`.
The loop `for (let i = windowStart; i <= windowEnd; i++)` runs exactly
`windowEnd + 1 - windowStart` times, which the caller supplies as `fuel`. -/
def growWindow (transcript : List Segment) (targetText : List Char)
    (opts : FindOptions) (windowStart : Nat) (score targetWordsLen : Nat) :
    Nat → Nat → List Char → Option MatchResult
  | 0, _, _ => none
  | fuel + 1, i, combinedText =>
    let combined :=
      if windowStart < i then combinedText ++ ' ' :: segTextAt transcript i
      else combinedText ++ segTextAt transcript i
    let normalizedCombined := normalizeForMatching combined
    let similarity :=
      calculateNgramSimilarity (normalizeForMatching targetText) normalizedCombined
    if opts.minSimilarity ≤ similarity then
      some ⟨true, windowStart, i, 0, ((segTextAt transcript i).length : Int),
        .fuzzyNgram, similarity,
        min 1 ((score : ℚ) / (targetWordsLen : ℚ))⟩
    else
      growWindow transcript targetText opts windowStart score targetWordsLen
        fuel (i + 1) combined

/-- The loop over the top-scoring candidate segments. `candidateIdx - 2` is
the source's `Math.max(0, candidateIdx - 2)` (truncated subtraction), and
`transcript.length - 1` its `transcript.length - 1` (the fuzzy stage is only
reached with candidates drawn from a non-empty transcript). -/
def tryCandidates (transcript : List Segment) (targetText : List Char)
    (opts : FindOptions) (targetWordsLen : Nat) :
    List (Nat × Nat) → Option MatchResult
  | [] => none
  | (candidateIdx, score) :: rest =>
    let windowStart := candidateIdx - 2
    let windowEnd := min (transcript.length - 1) (candidateIdx + opts.maxSegmentWindow)
    match growWindow transcript targetText opts windowStart score targetWordsLen
        (windowEnd + 1 - windowStart) windowStart [] with
    | some r => some r
    | none => tryCandidates transcript targetText opts targetWordsLen rest

/-- The exact stage of `findTextInTranscript` (independent of the options). -/
def exactStage (targetText : List Char) (index : TranscriptIndex) :
    Option MatchResult :=
  let exactMatch := boyerMooreSearch index.fullTextSpace targetText
  if exactMatch ≠ -1 then
    (mapMatchToSegments exactMatch.toNat targetText.length index).map
      (fun r => ⟨r.found, r.startSegmentIdx, r.endSegmentIdx,
        r.startCharOffset, r.endCharOffset, .exact, 1, 1⟩)
  else none

/-- The normalized stage of `findTextInTranscript` (independent of the
options); note the pattern is `normalizeWhitespace(targetText)`. -/
def normalizedStage (targetText : List Char) (index : TranscriptIndex) :
    Option MatchResult :=
  let normalizedTarget := normalizeWhitespace targetText
  let normalizedMatch := boyerMooreSearch index.normalizedText normalizedTarget
  if normalizedMatch ≠ -1 then
    (mapNormalizedMatchToSegments normalizedMatch.toNat normalizedTarget index).map
      (fun r => ⟨r.found, r.startSegmentIdx, r.endSegmentIdx,
        r.startCharOffset, r.endCharOffset, .normalized, 19/20, 19/20⟩)
  else none

/-- The fuzzy stage of `findTextInTranscript`. -/
def fuzzyStage (transcript : List Segment) (targetText : List Char)
    (index : TranscriptIndex) (opts : FindOptions) : Option MatchResult :=
  let targetWords := fuzzyTargetWords targetText
  if 0 < targetWords.length then
    let scoredSegments :=
      (sortByScoreDesc (fuzzyScores index.wordIndex targetWords opts.startIdx)).take 15
    tryCandidates transcript targetText opts targetWords.length scoredSegments
  else none

/-- `findTextInTranscript`: exact, then normalized, then fuzzy; a stage whose
search hits but whose mapper fails falls through to the next stage. -/
def findTextInTranscript (transcript : List Segment) (targetText : List Char)
    (index : TranscriptIndex) (opts : FindOptions) : Option MatchResult :=
  match exactStage targetText index with
  | some r => some r
  | none =>
    match normalizedStage targetText index with
    | some r => some r
    | none => fuzzyStage transcript targetText index opts

/-- The result record of per-quote resolution (`end` is a reserved word,
rendered `endTime`). -/
structure ResolvedQuote where
  start : ℚ
  endTime : ℚ
  text : List Char
  startSegmentIdx : Nat
  endSegmentIdx : Nat
  startCharOffset : Int
  endCharOffset : Int
  hasCompleteSentences : Bool
  confidence : ℚ
deriving DecidableEq

/-- The options of the global cascade run:
`minSimilarity: 0.8, maxSegmentWindow: 20`. -/
def globalFindOptions : FindOptions := ⟨0, 4/5, 20⟩

/-- The segments overlapping the quote's timestamp range, with their indices
(`segment.start <= timestampEnd && segmentEnd >= timestampStart`). -/
def segmentsInRange (transcript : List Segment)
    (timestampStart timestampEnd : ℚ) : List (Nat × Segment) :=
  transcript.enum.filter
    (fun p => decide (p.2.start ≤ timestampEnd ∧
      timestampStart ≤ p.2.start + p.2.duration))

/-- `segmentsInRange[0].idx` (meaningful only when the range is non-empty). -/
def rangeFirstIdx (transcript : List Segment)
    (timestampStart timestampEnd : ℚ) : Nat :=
  ((segmentsInRange transcript timestampStart timestampEnd).headD (0, ⟨0, 0, []⟩)).1

/-- `segmentsInRange[segmentsInRange.length - 1].idx`. -/
def rangeLastIdx (transcript : List Segment)
    (timestampStart timestampEnd : ℚ) : Nat :=
  ((segmentsInRange transcript timestampStart timestampEnd).getLastD (0, ⟨0, 0, []⟩)).1

/-- The options of the timestamp-constrained re-run:
`startIdx: Math.max(0, startSearchIdx - 2)` (truncated subtraction),
`minSimilarity: 0.75`,
`maxSegmentWindow: Math.min(20, endSearchIdx - startSearchIdx + 5)`. -/
def constrainedFindOptions (transcript : List Segment)
    (timestampStart timestampEnd : ℚ) : FindOptions :=
  ⟨rangeFirstIdx transcript timestampStart timestampEnd - 2, 3/4,
   min 20 (rangeLastIdx transcript timestampStart timestampEnd -
     rangeFirstIdx transcript timestampStart timestampEnd + 5)⟩

/-- The guaranteed fallback result: verbatim join of the overlapping
segments, whole-segment offsets, `confidence = 0.5`. -/
def fallbackResolved (transcript : List Segment)
    (timestampStart timestampEnd : ℚ) : ResolvedQuote :=
  let inRange := segmentsInRange transcript timestampStart timestampEnd
  let firstSegment := inRange.headD (0, ⟨0, 0, []⟩)
  let lastSegment := inRange.getLastD (0, ⟨0, 0, []⟩)
  ⟨firstSegment.2.start,
   lastSegment.2.start + lastSegment.2.duration,
   List.intercalate [' '] (inRange.map (fun p => p.2.text)),
   firstSegment.1, lastSegment.1,
   0, (lastSegment.2.text.length : Int),
   false, 1/2⟩

/-- The per-quote body of `findExactQuotes`. The timestamp string's parse
(`parseTimestampRange`, defined outside the covered sources) is abstracted
into the `timestampRange` argument: `none` is an absent or unparseable
timestamp, `some (start, end)` a successful parse in seconds. -/
def findExactQuoteOne (transcript : List Segment) (index : TranscriptIndex)
    (timestampRange : Option (ℚ × ℚ)) (text : List Char) :
    Option ResolvedQuote :=
  match timestampRange with
  | none => none
  | some (timestampStart, timestampEnd) =>
    let quoteText := trimWs text
    if quoteText = [] then none
    else
      match findTextInTranscript transcript quoteText index globalFindOptions with
      | some m =>
        some ⟨(segAt transcript m.startSegmentIdx).start,
          (segAt transcript m.endSegmentIdx).start +
            (segAt transcript m.endSegmentIdx).duration,
          quoteText, m.startSegmentIdx, m.endSegmentIdx,
          m.startCharOffset, m.endCharOffset,
          decide (m.matchStrategy ≠ .fuzzyNgram), m.confidence⟩
      | none =>
        let inRange := segmentsInRange transcript timestampStart timestampEnd
        if inRange = [] then none
        else
          let endSearchIdx := rangeLastIdx transcript timestampStart timestampEnd
          let rangeMatch := findTextInTranscript transcript quoteText index
            (constrainedFindOptions transcript timestampStart timestampEnd)
          match rangeMatch with
          | some rm =>
            if rm.startSegmentIdx ≤ endSearchIdx + 2 then
              some ⟨(segAt transcript rm.startSegmentIdx).start,
                (segAt transcript rm.endSegmentIdx).start +
                  (segAt transcript rm.endSegmentIdx).duration,
                quoteText, rm.startSegmentIdx, rm.endSegmentIdx,
                rm.startCharOffset, rm.endCharOffset,
                decide (rm.matchStrategy ≠ .fuzzyNgram), rm.confidence⟩
            else some (fallbackResolved transcript timestampStart timestampEnd)
          | none => some (fallbackResolved transcript timestampStart timestampEnd)

/-- The position at which segment `k`'s text starts inside `fullTextSpace`
(each earlier segment contributes its text plus one joining space). -/
def startPosSpec (t : List Segment) : Nat → Nat
  | 0 => 0
  | k + 1 => startPosSpec t k + (segTextAt t k).length + 1

/-- The position at which segment `k`'s normalized text starts inside
`normalizedText`. -/
def normPosSpec (t : List Segment) : Nat → Nat
  | 0 => 0
  | k + 1 => normPosSpec t k + (normalizeForMatching (segTextAt t k)).length + 1

/-- The suffix of `fullTextSpace` contributed by segments `k, k+1, ...`
(joining space before each segment after `k`). -/
def fullTextFrom (t : List Segment) (k : Nat) : List Char :=
  if _h : k < t.length then
    segTextAt t k ++ (if k + 1 < t.length then ' ' :: fullTextFrom t (k + 1) else [])
  else []
termination_by t.length - k

/-- The boundary records contributed by segments `k, k+1, ...` when segment
`k`'s text starts at offset `pos`. -/
def boundsSpec (t : List Segment) (k pos : Nat) : List Boundary :=
  if _h : k < t.length then
    ⟨k, pos, pos + (segTextAt t k).length, segTextAt t k,
      normalizeForMatching (segTextAt t k)⟩ ::
      boundsSpec t (k + 1) (pos + (segTextAt t k).length + 1)
  else []
termination_by t.length - k

/-- Well-formedness of a boundary-list suffix relative to transcript `t`:
`bs` consists of the boundary records of segments `k, ..., t.length - 1`,
the one of segment `k` starting at offset `pos`. -/
inductive BoundsFrom (t : List Segment) : Nat → Nat → List Boundary → Prop
  | nil (pos : Nat) : BoundsFrom t t.length pos []
  | cons (k pos : Nat) (rest : List Boundary) (hk : k < t.length)
      (hrest : BoundsFrom t (k + 1) (pos + (segTextAt t k).length + 1) rest) :
      BoundsFrom t k pos
        (⟨k, pos, pos + (segTextAt t k).length, segTextAt t k,
          normalizeForMatching (segTextAt t k)⟩ :: rest)

/-- The word-index tokens of one segment: whitespace-split normalized text,
keeping tokens of length above 2. -/
def segTokens (s : Segment) : List (List Char) :=
  (splitWs (normalizeForMatching s.text)).filter (fun w => 2 < w.length)

/-- `segmentScores.get(k) || 0`. -/
def lookupScore : List (Nat × Nat) → Nat → Nat
  | [], _ => 0
  | (k, v) :: rest, q => if k = q then v else lookupScore rest q

/-- The posting list of `w` contributed by segments `idx, idx+1, ...`:
segment `idx` is pushed once per occurrence of `w` among its tokens. -/
def postingSpec (w : List Char) : Nat → List Segment → List Nat
  | _, [] => []
  | idx, s :: rest => List.replicate ((segTokens s).count w) idx ++ postingSpec w (idx + 1) rest

/-- Modelled from the spec (the claimed vote-counting contract, for
comparison with the code's tally): the number of distinct query tokens that
occur among the segment's tokens. -/
def specDistinctVoteCount (targetText : List Char) (s : Segment) : Nat :=
  ((fuzzyTargetWords targetText).dedup.filter (fun w => w ∈ segTokens s)).length

/-- Build a segment from start, duration and text. -/
def mkSeg (a b : ℚ) (s : String) : Segment := ⟨a, b, s.data⟩

/-- A one-segment transcript used for concrete checks. -/
def tHello : List Segment := [mkSeg 0 10 "hello world"]

/-- Scenario A of the spec: two adjacent segments. -/
def tWelcome : List Segment :=
  [mkSeg 0 5 "Welcome to the show.", mkSeg 5 4 "Today we discuss AI."]

/-- A transcript whose segments all carry the same text. -/
def tRepeat : List Segment := [mkSeg 0 1 "a", mkSeg 1 1 "a", mkSeg 2 1 "a"]

/-- A transcript on which the fuzzy window visibly starts two segments
before its candidate and grows past `maxSegmentWindow` segments. -/
def tFuzzy : List Segment :=
  [mkSeg 0 1 "xq", mkSeg 1 1 "yq", mkSeg 2 1 "alpha beta ceta",
   mkSeg 3 1 "gamma delta"]

/-- A transcript on which the timestamp-constrained re-run accepts a match
starting four segments before the first overlapping segment. -/
def tAnchor : List Segment :=
  [mkSeg 0 10 "bcdefg", mkSeg 10 10 "zz", mkSeg 20 10 "bcdef",
   mkSeg 30 10 "zz", mkSeg 40 10 "zz", mkSeg 50 10 "zz"]

/-- A one-segment transcript whose text repeats a word. -/
def tAlpha : List Segment := [mkSeg 0 1 "alpha alpha box"]

theorem scanBack_iff (t p : List Char) :
    ∀ j k, j < p.length → j ≤ k →
      (scanBack t p k j = true ↔ ∀ d ≤ j, t.get? (k - j + d) = p.get? d) := by
  intro j
  induction j with
  | zero =>
    intro k _ _
    simp only [scanBack, beq_iff_eq]
    constructor
    · intro h d hd
      have hd0 : d = 0 := by omega
      subst hd0
      simpa using h
    · intro h
      simpa using h 0 (le_refl 0)
  | succ j ih =>
    intro k hj hk
    simp only [scanBack, Bool.and_eq_true, beq_iff_eq]
    rw [ih (k - 1) (Nat.lt_of_succ_lt hj) (by omega)]
    constructor
    · rintro ⟨h1, h2⟩ d hd
      rcases Nat.lt_succ_iff_lt_or_eq.mp (Nat.lt_succ_of_le hd) with hd' | hd'
      · have := h2 d (by omega)
        have e : k - 1 - j + d = k - (j + 1) + d := by omega
        rwa [e] at this
      · subst hd'
        have e : k - (j + 1) + (j + 1) = k := by omega
        rwa [e]
    · intro h
      refine ⟨?_, ?_⟩
      · have := h (j + 1) (le_refl _)
        have e : k - (j + 1) + (j + 1) = k := by omega
        rwa [e] at this
      · intro d hd
        have := h d (Nat.le_succ_of_le hd)
        have e : k - (j + 1) + d = k - 1 - j + d := by omega
        rwa [e] at this

theorem scanBack_occursAt {t p : List Char} (hp : 0 < p.length) {i : Nat}
    (hi : p.length - 1 ≤ i) :
    (scanBack t p i (p.length - 1) = true ↔ occursAt t p (i - (p.length - 1))) := by
  rw [scanBack_iff t p (p.length - 1) i (by omega) hi]
  unfold occursAt
  constructor
  · intro h d hd
    exact h d (by omega)
  · intro h d hd
    exact h d (by omega)

theorem no_occursAt_of_tail {t p : List Char} (hp : 0 < p.length) {i : Nat}
    (hti : t.length ≤ i)
    (hinv : ∀ s, s + (p.length - 1) < i → ¬ occursAt t p s) :
    ∀ s, ¬ occursAt t p s := by
  intro s hs
  by_cases hcase : s + (p.length - 1) < i
  · exact hinv s hcase hs
  · have h1 := hs (p.length - 1) (by omega)
    have h2 : t.get? (s + (p.length - 1)) = none := by
      rw [List.get?_eq_none]
      omega
    have h3 : p.get? (p.length - 1) ≠ none := by
      intro hc
      rw [List.get?_eq_none] at hc
      omega
    rw [h1] at h2
    exact h3 h2

theorem bmLoop_correct (t p : List Char) (hp : 0 < p.length) :
    ∀ fuel i, t.length - i < fuel → p.length - 1 ≤ i →
      (∀ s, s + (p.length - 1) < i → ¬ occursAt t p s) →
      (∃ m : Nat, bmLoop t p fuel i = (m : Int) ∧ occursAt t p m ∧
        ∀ j < m, ¬ occursAt t p j) ∨
      (bmLoop t p fuel i = -1 ∧ ∀ s, ¬ occursAt t p s) := by
  intro fuel
  induction fuel with
  | zero =>
    intro i hfuel hge hinv
    omega
  | succ fuel ih =>
    intro i hfuel hge hinv
    rw [bmLoop]
    by_cases hlt : i < t.length
    · rw [if_pos hlt]
      by_cases hscan : scanBack t p i (p.length - 1) = true
      · rw [if_pos hscan]
        left
        refine ⟨i - (p.length - 1), rfl, (scanBack_occursAt hp hge).mp hscan, ?_⟩
        intro j hj
        exact hinv j (by omega)
      · rw [if_neg hscan]
        have hskip1 := badCharSkip_pos hp (t.getD i ' ')
        apply ih
        · omega
        · omega
        · intro s hs hocc
          by_cases h1 : s + (p.length - 1) < i
          · exact hinv s h1 hocc
          · by_cases h2 : s + (p.length - 1) = i
            · have hseq : s = i - (p.length - 1) := by omega
              apply hscan
              rw [scanBack_occursAt hp hge, ← hseq]
              exact hocc
            · have hgt : i < s + (p.length - 1) := by omega
              have hle : badCharSkip p (t.getD i ' ') ≤ p.length := badCharSkip_le p _
              have hsle : s ≤ i := by omega
              have hd : i - s < p.length - 1 := by omega
              have hti : t.get? i = some (t.getD i ' ') := by
                cases hg : t.get? i with
                | none =>
                  rw [List.get?_eq_none] at hg
                  omega
                | some v =>
                  rw [List.getD_eq_get?, hg]
                  rfl
              have hpc : p.get? (i - s) = some (t.getD i ' ') := by
                have hx := hocc (i - s) (by omega)
                rw [show s + (i - s) = i by omega] at hx
                rw [← hx, hti]
              cases hidx : lastIdxBefore p (t.getD i ' ') (p.length - 1) with
              | some idx =>
                have hmax := lastIdxBefore_max hidx hd hpc
                have hlt' := lastIdxBefore_lt hidx
                simp only [badCharSkip, hidx] at hs
                omega
              | none =>
                exact lastIdxBefore_none hidx hd hpc
    · rw [if_neg hlt]
      exact Or.inr ⟨rfl, no_occursAt_of_tail hp (by omega) hinv⟩

theorem boyerMooreSearch_characterization (text pattern : List Char) :
    (∃ m : Nat, boyerMooreSearch text pattern = (m : Int) ∧
      occursAt text pattern m ∧ ∀ j < m, ¬ occursAt text pattern j) ∨
    (boyerMooreSearch text pattern = -1 ∧
      ∀ s, ¬ occursAt text pattern s) := by
  unfold boyerMooreSearch
  by_cases h0 : pattern.length = 0
  · rw [if_pos h0]
    exact Or.inl ⟨0, rfl, fun d hd => absurd hd (by omega),
      fun j hj => absurd hj (by omega)⟩
  · rw [if_neg h0]
    by_cases h1 : pattern.length > text.length
    · rw [if_pos h1]
      right
      refine ⟨rfl, ?_⟩
      intro s hs
      have hx := hs (pattern.length - 1) (by omega)
      have h2 : text.get? (s + (pattern.length - 1)) = none := by
        rw [List.get?_eq_none]
        omega
      have h3 : pattern.get? (pattern.length - 1) ≠ none := by
        intro hc
        rw [List.get?_eq_none] at hc
        omega
      rw [hx] at h2
      exact h3 h2
    · rw [if_neg h1]
      exact bmLoop_correct text pattern (Nat.pos_of_ne_zero h0)
        (text.length + 1) (pattern.length - 1) (by omega) (by omega)
        (fun s hs => absurd hs (by omega))

/-- C6: for every text string `t` and pattern string `p`,
`boyerMooreSearch t p` returns the smallest index at which `p` occurs in `t`
(the empty pattern occurring at index 0), and returns `-1` exactly when `p`
does not occur in `t`. -/
theorem c6_boyerMooreSearch_correct (text pattern : List Char) :
    (∃ m : Nat, boyerMooreSearch text pattern = (m : Int) ∧
      occursAt text pattern m ∧ ∀ j < m, ¬ occursAt text pattern j) ∨
    (boyerMooreSearch text pattern = -1 ∧
      ∀ s, ¬ occursAt text pattern s) :=
  boyerMooreSearch_characterization text pattern

/-- Witness for C6 at a concrete text and pattern. -/
theorem c6_witness :
    (∃ m : Nat, boyerMooreSearch "abcabdab".data "abd".data = (m : Int) ∧
      occursAt "abcabdab".data "abd".data m ∧
      ∀ j < m, ¬ occursAt "abcabdab".data "abd".data j) ∨
    (boyerMooreSearch "abcabdab".data "abd".data = -1 ∧
      ∀ s, ¬ occursAt "abcabdab".data "abd".data s) :=
  c6_boyerMooreSearch_correct "abcabdab".data "abd".data

/-- C2 counterexample: the pattern the normalized stage searches for is
`normalizeWhitespace` of the quote, which differs from the segment
normalization `normalizeForMatching` already on the one-word quote
`Hello` (the query keeps its capital letter). -/
theorem c2_counterexample :
    normalizeWhitespace "Hello".data = "Hello".data ∧
    normalizeForMatching "Hello".data = "hello".data ∧
    normalizeWhitespace "Hello".data ≠ normalizeForMatching "Hello".data := by
  decide

theorem collapseRunsAux_eq_self {p : Char → Bool} {r : Char} {l : List Char}
    (h : ∀ c ∈ l, p c = false) : ∀ b, collapseRunsAux p r b l = l := by
  induction l with
  | nil => intro b; rfl
  | cons c cs ih =>
    intro b
    have hc : p c = false := h c (List.mem_cons_self c cs)
    simp only [collapseRunsAux, hc]
    rw [if_neg (by simp [hc])]
    rw [ih (fun x hx => h x (List.mem_cons_of_mem c hx)) false]

theorem map_eq_self_of_mem (f : Char → Char) :
    ∀ (l : List Char), (∀ c ∈ l, f c = c) → l.map f = l := by
  intro l
  induction l with
  | nil => intro _; rfl
  | cons c cs ih =>
    intro h
    simp only [List.map_cons, h c (List.mem_cons_self c cs), List.cons.injEq,
      true_and]
    exact ih (fun x hx => h x (List.mem_cons_of_mem c hx))

/-- C2 (amended): the normalized stage searches `normalizedText` for
`normalizeWhitespace(q)`, not `normalizeForMatching(q)`; the two agree
whenever `q` contains no character changed by lowercasing, none of the
stripped punctuation and no carriage return or line feed, and in general
they differ. -/
theorem c2_pattern_amended (q : List Char)
    (h : ∀ c ∈ q, jsToLower c = c ∧ isStrippedPunct c = false ∧
      isCrLf c = false) :
    normalizeWhitespace q = normalizeForMatching q := by
  unfold normalizeWhitespace normalizeForMatching collapseRuns
  have h1 : q.map jsToLower = q :=
    map_eq_self_of_mem jsToLower q (fun c hc => (h c hc).1)
  have h2 : (q.map jsToLower).filter (fun c => !(isStrippedPunct c)) = q := by
    rw [h1]
    apply List.filter_eq_self.mpr
    intro c hc
    simp [(h c hc).2.1]
  have h3 : collapseRunsAux isCrLf ' ' false q = q :=
    collapseRunsAux_eq_self (fun c hc => (h c hc).2.2) false
  rw [h2, h3]

/-- Witness for C2's amended statement on a lowercase punctuation-free quote. -/
theorem c2_witness :
    normalizeWhitespace "today we discuss ai".data =
      normalizeForMatching "today we discuss ai".data :=
  c2_pattern_amended "today we discuss ai".data (by decide)

theorem jsDedupAux_eq_nil_iff (seen : List (List Char)) (l : List (List Char)) :
    jsDedupAux seen l = [] ↔ ∀ g ∈ l, g ∈ seen := by
  induction l generalizing seen with
  | nil => simp [jsDedupAux]
  | cons g rest ih =>
    simp only [jsDedupAux]
    by_cases hg : g ∈ seen
    · rw [if_pos hg, ih seen]
      constructor
      · intro h x hx
        rcases List.mem_cons.mp hx with hx | hx
        · subst hx; exact hg
        · exact h x hx
      · intro h x hx
        exact h x (List.mem_cons_of_mem g hx)
    · rw [if_neg hg]
      constructor
      · intro h; cases h
      · intro h
        exact absurd (h g (List.mem_cons_self g rest)) hg

theorem ngramSet_eq_nil_iff (clean : List Char) :
    ngramSet clean = [] ↔ clean.length < 3 := by
  unfold ngramSet jsDedup ngramList
  by_cases h : clean.length < 3
  · rw [if_pos h]
    exact iff_of_true rfl h
  · rw [if_neg h]
    rw [jsDedupAux_eq_nil_iff]
    constructor
    · intro hc
      exfalso
      have hne : 0 < clean.length - 2 := by omega
      have hmem : (clean.drop 0).take 3 ∈
          (List.range (clean.length - 2)).map (fun i => (clean.drop i).take 3) :=
        List.mem_map_of_mem _ (List.mem_range.mpr hne)
      simpa using hc _ hmem
    · intro hc
      omega

/-- C9 counterexample: on the input pair `""` and `"a"` both cleaned strings
have fewer than 3 characters and one contains the other, so the claim demands
0.8; the initial empty-input guard returns 0 instead. -/
theorem c9_counterexample :
    ([] : List Char).length < 3 ∧
    jsIncludes (['a'].filter (fun c => !(isJsSpace c)))
      (([] : List Char).filter (fun c => !(isJsSpace c))) = true ∧
    calculateNgramSimilarity [] ['a'] = 0 ∧
    (0 : ℚ) ≠ 4/5 := by
  decide

/-- C9 (amended): for a pair of non-empty input strings, if either string
stripped of internal whitespace has fewer than 3 characters, the similarity
is the containment fallback: 0.8 when one cleaned string contains the other
and 0 otherwise. Empty inputs are answered 0 before the fallback is reached. -/
theorem c9_short_string_amended (str1 str2 : List Char)
    (h1 : str1 ≠ []) (h2 : str2 ≠ [])
    (h3 : (str1.filter (fun c => !(isJsSpace c))).length < 3 ∨
      (str2.filter (fun c => !(isJsSpace c))).length < 3) :
    calculateNgramSimilarity str1 str2 =
      if jsIncludes (str1.filter (fun c => !(isJsSpace c)))
           (str2.filter (fun c => !(isJsSpace c))) ||
         jsIncludes (str2.filter (fun c => !(isJsSpace c)))
           (str1.filter (fun c => !(isJsSpace c))) then 4/5 else 0 := by
  simp only [calculateNgramSimilarity]
  rw [if_neg (by
    intro hc
    rcases hc with hc | hc
    · exact h1 (List.length_eq_zero.mp hc)
    · exact h2 (List.length_eq_zero.mp hc))]
  rw [if_pos (by
    rcases h3 with h3 | h3
    · exact Or.inl (List.length_eq_zero.mpr ((ngramSet_eq_nil_iff _).mpr h3))
    · exact Or.inr (List.length_eq_zero.mpr ((ngramSet_eq_nil_iff _).mpr h3)))]

/-- Witness for C9's amended statement: cleaned `" a"` has one character, is
contained in cleaned `"abc"`, and the similarity is the 0.8 fallback. -/
theorem c9_witness :
    calculateNgramSimilarity " a".data "abc".data =
      if jsIncludes (" a".data.filter (fun c => !(isJsSpace c)))
           ("abc".data.filter (fun c => !(isJsSpace c))) ||
         jsIncludes ("abc".data.filter (fun c => !(isJsSpace c)))
           (" a".data.filter (fun c => !(isJsSpace c))) then 4/5 else 0 :=
  c9_short_string_amended " a".data "abc".data (by decide) (by decide) (by decide)

theorem jsDedupAux_mem {l : List (List Char)} :
    ∀ {seen g}, (g ∈ jsDedupAux seen l ↔ g ∈ l ∧ g ∉ seen) := by
  induction l with
  | nil => intro seen g; simp [jsDedupAux]
  | cons x rest ih =>
    intro seen g
    simp only [jsDedupAux]
    by_cases hx : x ∈ seen
    · rw [if_pos hx, ih]
      constructor
      · rintro ⟨hg, hns⟩
        exact ⟨List.mem_cons_of_mem x hg, hns⟩
      · rintro ⟨hg, hns⟩
        rcases List.mem_cons.mp hg with hg | hg
        · subst hg; exact absurd hx hns
        · exact ⟨hg, hns⟩
    · rw [if_neg hx]
      simp only [List.mem_cons, ih]
      constructor
      · rintro (hg | ⟨hg, hns⟩)
        · subst hg; exact ⟨Or.inl rfl, hx⟩
        · exact ⟨Or.inr hg, fun hc => hns (Or.inr hc)⟩
      · rintro ⟨hg | hg, hns⟩
        · exact Or.inl hg
        · by_cases hgx : g = x
          · exact Or.inl hgx
          · exact Or.inr ⟨hg, fun hc => hc.elim (fun h' => hgx h') hns⟩

theorem jsDedupAux_nodup (l : List (List Char)) :
    ∀ seen, (jsDedupAux seen l).Nodup := by
  induction l with
  | nil => intro seen; simp [jsDedupAux]
  | cons x rest ih =>
    intro seen
    simp only [jsDedupAux]
    by_cases hx : x ∈ seen
    · rw [if_pos hx]; exact ih seen
    · rw [if_neg hx]
      refine List.Nodup.cons ?_ (ih (x :: seen))
      intro hc
      exact (jsDedupAux_mem.mp hc).2 (List.mem_cons_self x seen)

theorem jsDedup_nodup (l : List (List Char)) : (jsDedup l).Nodup :=
  jsDedupAux_nodup l []

theorem countP_mem_comm (u v : List (List Char)) (hu : u.Nodup) (hv : v.Nodup) :
    u.countP (fun g => decide (g ∈ v)) = v.countP (fun g => decide (g ∈ u)) := by
  rw [List.countP_eq_length_filter, List.countP_eq_length_filter]
  apply List.Perm.length_eq
  apply (List.perm_ext_iff_of_nodup (hu.filter _) (hv.filter _)).mpr
  intro a
  simp only [List.mem_filter, decide_eq_true_eq]
  exact ⟨fun ⟨h1, h2⟩ => ⟨h2, h1⟩, fun ⟨h1, h2⟩ => ⟨h2, h1⟩⟩

/-- C10: the n-gram similarity used for fuzzy scoring is symmetric in its
two arguments. -/
theorem c10_similarity_symm (a b : List Char) :
    calculateNgramSimilarity a b = calculateNgramSimilarity b a := by
  simp only [calculateNgramSimilarity]
  set ga := ngramSet (a.filter (fun c => !(isJsSpace c))) with hga
  set gb := ngramSet (b.filter (fun c => !(isJsSpace c))) with hgb
  by_cases h1 : a.length = 0 ∨ b.length = 0
  · rw [if_pos h1, if_pos (Or.symm h1)]
  · rw [if_neg h1, if_neg (fun hc => h1 (Or.symm hc))]
    by_cases h2 : ga.length = 0 ∨ gb.length = 0
    · rw [if_pos h2, if_pos (Or.symm h2), Bool.or_comm]
    · rw [if_neg h2, if_neg (fun hc => h2 (Or.symm hc))]
      rw [countP_mem_comm ga gb (hga ▸ jsDedup_nodup _) (hgb ▸ jsDedup_nodup _),
        Nat.add_comm ga.length]

theorem lookupPosting_pushPosting_self (m : WordIndex) (w : List Char) (idx : Nat) :
    lookupPosting (pushPosting m w idx) w = lookupPosting m w ++ [idx] := by
  induction m with
  | nil => simp [pushPosting, lookupPosting]
  | cons kv rest ih =>
    obtain ⟨k, ps⟩ := kv
    simp only [pushPosting, lookupPosting]
    by_cases hk : k = w
    · rw [if_pos hk, if_pos hk]
      simp [lookupPosting, hk]
    · rw [if_neg hk]
      simp only [lookupPosting, if_neg hk]
      exact ih

theorem lookupPosting_pushPosting_other (m : WordIndex) {w w' : List Char}
    (idx : Nat) (h : w' ≠ w) :
    lookupPosting (pushPosting m w idx) w' = lookupPosting m w' := by
  induction m with
  | nil =>
    simp only [pushPosting, lookupPosting]
    rw [if_neg (fun hc => h hc.symm)]
  | cons kv rest ih =>
    obtain ⟨k, ps⟩ := kv
    simp only [pushPosting]
    by_cases hk : k = w
    · rw [if_pos hk]
      simp only [lookupPosting]
      rw [if_neg (by rw [hk]; exact fun hc => h hc.symm),
        if_neg (by rw [hk]; exact fun hc => h hc.symm)]
    · rw [if_neg hk]
      simp only [lookupPosting]
      by_cases hk' : k = w'
      · rw [if_pos hk', if_pos hk']
      · rw [if_neg hk', if_neg hk']
        exact ih

theorem lookupPosting_wordFold (ws : List (List Char)) :
    ∀ (m : WordIndex) (idx : Nat) (w : List Char),
      lookupPosting (ws.foldl
        (fun m w => if 2 < w.length then pushPosting m w idx else m) m) w =
      lookupPosting m w ++
        List.replicate ((ws.filter (fun x => 2 < x.length)).count w) idx := by
  induction ws with
  | nil => intro m idx w; simp [List.count]
  | cons w0 rest ih =>
    intro m idx w
    simp only [List.foldl_cons, List.filter_cons]
    by_cases h0 : 2 < w0.length
    · rw [if_pos h0, if_pos (by simpa using h0)]
      rw [ih]
      by_cases hw : w0 = w
      · subst hw
        rw [lookupPosting_pushPosting_self, List.count_cons_self]
        simp [List.replicate_succ, List.append_assoc]
      · rw [lookupPosting_pushPosting_other m idx (fun hc => hw hc.symm)]
        rw [List.count_cons_of_ne (by exact fun hc => hw hc.symm)]
    · rw [if_neg h0, if_neg (by simpa using h0)]
      exact ih m idx w

theorem lookupPosting_buildAux (l : List Segment) :
    ∀ (st : BuildState) (idx : Nat) (w : List Char),
      lookupPosting (buildAux st idx l).wordIndex w =
        lookupPosting st.wordIndex w ++ postingSpec w idx l := by
  induction l with
  | nil => intro st idx w; simp [buildAux, postingSpec]
  | cons s rest ih =>
    intro st idx w
    simp only [buildAux, postingSpec]
    rw [ih, ← List.append_assoc]
    congr 1
    show lookupPosting (buildStep st idx s).wordIndex w = _
    unfold buildStep
    simp only
    rw [lookupPosting_wordFold]
    have hw : (if 0 < idx then
        { st with fullTextSpace := st.fullTextSpace ++ [' '],
                  fullTextNewline := st.fullTextNewline ++ ['\n'],
                  normalizedText := st.normalizedText ++ [' '] }
        else st).wordIndex = st.wordIndex := by
      split <;> rfl
    rw [hw]
    rfl

theorem lookupPosting_build (t : List Segment) (w : List Char) :
    lookupPosting (buildTranscriptIndex t).wordIndex w = postingSpec w 0 t := by
  unfold buildTranscriptIndex
  simp only
  rw [lookupPosting_buildAux]
  rfl

theorem postingSpec_mem_ge {w : List Char} :
    ∀ {idx : Nat} {l : List Segment} {x : Nat}, x ∈ postingSpec w idx l → idx ≤ x := by
  intro idx l
  induction l generalizing idx with
  | nil => intro x hx; simp [postingSpec] at hx
  | cons s rest ih =>
    intro x hx
    simp only [postingSpec, List.mem_append] at hx
    rcases hx with hx | hx
    · rw [List.eq_of_mem_replicate hx]
    · have := ih hx
      omega

theorem postingSpec_count (w : List Char) :
    ∀ (l : List Segment) (idx seg : Nat), idx ≤ seg →
      (postingSpec w idx l).count seg =
        (segTokens ((l.getD (seg - idx) ⟨0, 0, []⟩))).count w := by
  intro l
  induction l with
  | nil =>
    intro idx seg _
    show ([] : List Nat).count seg = (segTokens ⟨0, 0, []⟩).count w
    have : segTokens ⟨0, 0, []⟩ = [] := by decide
    rw [this]
    simp
  | cons s rest ih =>
    intro idx seg hle
    simp only [postingSpec, List.count_append]
    by_cases hseg : seg = idx
    · subst hseg
      have h0 : (postingSpec w (seg + 1) rest).count seg = 0 := by
        rw [List.count_eq_zero]
        intro hc
        have := postingSpec_mem_ge hc
        omega
      rw [h0]
      simp [List.count_replicate]
    · have h1 : (List.replicate ((segTokens s).count w) idx).count seg = 0 := by
        rw [List.count_eq_zero]
        intro hc
        exact hseg (List.eq_of_mem_replicate hc)
      rw [h1, ih (idx + 1) seg (by omega)]
      have : seg - idx = (seg - (idx + 1)) + 1 := by omega
      rw [this]
      simp

theorem lookupScore_bumpScore_self (sc : List (Nat × Nat)) (k : Nat) :
    lookupScore (bumpScore sc k) k = lookupScore sc k + 1 := by
  induction sc with
  | nil => simp [bumpScore, lookupScore]
  | cons kv rest ih =>
    obtain ⟨k', v⟩ := kv
    simp only [bumpScore]
    by_cases hk : k' = k
    · rw [if_pos hk]
      simp [lookupScore, hk]
    · rw [if_neg hk]
      simp only [lookupScore, if_neg hk]
      exact ih

theorem lookupScore_bumpScore_other (sc : List (Nat × Nat)) {k q : Nat}
    (h : q ≠ k) : lookupScore (bumpScore sc k) q = lookupScore sc q := by
  induction sc with
  | nil =>
    simp only [bumpScore, lookupScore]
    rw [if_neg (fun hc => h hc.symm)]
  | cons kv rest ih =>
    obtain ⟨k', v⟩ := kv
    simp only [bumpScore]
    by_cases hk : k' = k
    · rw [if_pos hk]
      simp only [lookupScore]
      rw [if_neg (by rw [hk]; exact fun hc => h hc.symm),
        if_neg (by rw [hk]; exact fun hc => h hc.symm)]
    · rw [if_neg hk]
      simp only [lookupScore]
      by_cases hk' : k' = q
      · rw [if_pos hk', if_pos hk']
      · rw [if_neg hk', if_neg hk']
        exact ih

theorem lookupScore_postingFold (ps : List Nat) (startIdx seg : Nat) :
    ∀ sc : List (Nat × Nat),
      lookupScore (ps.foldl
        (fun sc segIdx => if startIdx ≤ segIdx then bumpScore sc segIdx else sc)
        sc) seg =
      lookupScore sc seg + (if startIdx ≤ seg then ps.count seg else 0) := by
  induction ps with
  | nil => intro sc; simp
  | cons i rest ih =>
    intro sc
    simp only [List.foldl_cons]
    rw [ih]
    by_cases hs : startIdx ≤ seg
    · rw [if_pos hs, if_pos hs]
      by_cases hi : i = seg
      · subst hi
        rw [if_pos hs, lookupScore_bumpScore_self, List.count_cons_self]
        omega
      · rw [List.count_cons_of_ne (fun hc => hi hc.symm)]
        by_cases hsi : startIdx ≤ i
        · rw [if_pos hsi, lookupScore_bumpScore_other _ (fun hc => hi hc.symm)]
        · rw [if_neg hsi]
    · rw [if_neg hs, if_neg hs]
      by_cases hsi : startIdx ≤ i
      · rw [if_pos hsi,
          lookupScore_bumpScore_other _ (fun hc => hs (by rw [hc]; exact hsi))]
      · rw [if_neg hsi]

theorem lookupScore_fuzzyScores (wi : WordIndex) (tw : List (List Char))
    (startIdx seg : Nat) :
    lookupScore (fuzzyScores wi tw startIdx) seg =
      if startIdx ≤ seg then
        (tw.map (fun w => (lookupPosting wi w).count seg)).sum
      else 0 := by
  unfold fuzzyScores
  have key : ∀ (l : List (List Char)) (sc : List (Nat × Nat)),
      lookupScore (l.foldl (fun scores word =>
        (lookupPosting wi word).foldl
          (fun sc segIdx => if startIdx ≤ segIdx then bumpScore sc segIdx else sc)
          scores) sc) seg =
      lookupScore sc seg +
        (if startIdx ≤ seg then
          (l.map (fun w => (lookupPosting wi w).count seg)).sum else 0) := by
    intro l
    induction l with
    | nil => intro sc; simp
    | cons w rest ih =>
      intro sc
      simp only [List.foldl_cons, List.map_cons, List.sum_cons]
      rw [ih, lookupScore_postingFold]
      by_cases hs : startIdx ≤ seg
      · rw [if_pos hs, if_pos hs, if_pos hs]
        omega
      · rw [if_neg hs, if_neg hs, if_neg hs]
  rw [key]
  simp [lookupScore]

/-- C4 (amended): the vote tallied for a segment is the number of pairs of a
query-token occurrence and an occurrence of that token among the segment's
indexed tokens — repeats in the query and repeats inside the segment each
re-vote — restricted to segments at or after `startIdx`. -/
theorem c4_vote_count_amended (t : List Segment) (targetText : List Char)
    (startIdx seg : Nat) :
    lookupScore (fuzzyScores (buildTranscriptIndex t).wordIndex
        (fuzzyTargetWords targetText) startIdx) seg =
      if startIdx ≤ seg then
        ((fuzzyTargetWords targetText).map
          (fun w => (segTokens (segAt t seg)).count w)).sum
      else 0 := by
  rw [lookupScore_fuzzyScores]
  by_cases hs : startIdx ≤ seg
  · rw [if_pos hs, if_pos hs]
    congr 1
    apply List.map_congr_left
    intro w _
    rw [lookupPosting_build, postingSpec_count w t 0 seg (by omega)]
    rfl
  · rw [if_neg hs, if_neg hs]

/-- C4 counterexample: on the one-segment transcript whose text is
`alpha alpha box` and the query `alpha`, the code tallies 2 votes for
segment 0 (the posting list holds the segment once per occurrence), while
the number of distinct query tokens occurring in the segment is 1. -/
theorem c4_counterexample :
    lookupScore (fuzzyScores (buildTranscriptIndex tAlpha).wordIndex
        (fuzzyTargetWords "alpha".data) 0) 0 = 2 ∧
    specDistinctVoteCount "alpha".data (segAt tAlpha 0) = 1 ∧
    (2 : Nat) ≠ 1 := by
  decide

theorem growWindow_some (transcript : List Segment) (targetText : List Char)
    (opts : FindOptions) (ws score n : Nat) :
    ∀ (fuel i : Nat) (comb : List Char) (r : MatchResult),
      growWindow transcript targetText opts ws score n fuel i comb = some r →
      r.startSegmentIdx = ws ∧ i ≤ r.endSegmentIdx ∧ r.endSegmentIdx < i + fuel ∧
      r.matchStrategy = .fuzzyNgram ∧ r.startCharOffset = 0 ∧
      r.endCharOffset = ((segTextAt transcript r.endSegmentIdx).length : Int) ∧
      opts.minSimilarity ≤ r.similarity := by
  intro fuel
  induction fuel with
  | zero =>
    intro i comb r h
    simp [growWindow] at h
  | succ fuel ih =>
    intro i comb r h
    simp only [growWindow] at h
    by_cases hws : ws < i
    · rw [if_pos hws] at h
      split at h
      · cases h
        refine ⟨rfl, le_refl _, ?_, rfl, rfl, rfl, by assumption⟩
        show i < i + (fuel + 1)
        omega
      · obtain ⟨h1, h2, h3, h4, h5, h6, h7⟩ := ih _ _ _ h
        exact ⟨h1, by omega, by omega, h4, h5, h6, h7⟩
    · rw [if_neg hws] at h
      split at h
      · cases h
        refine ⟨rfl, le_refl _, ?_, rfl, rfl, rfl, by assumption⟩
        show i < i + (fuel + 1)
        omega
      · obtain ⟨h1, h2, h3, h4, h5, h6, h7⟩ := ih _ _ _ h
        exact ⟨h1, by omega, by omega, h4, h5, h6, h7⟩

theorem tryCandidates_some (transcript : List Segment) (targetText : List Char)
    (opts : FindOptions) (n : Nat) :
    ∀ (cands : List (Nat × Nat)) (r : MatchResult),
      tryCandidates transcript targetText opts n cands = some r →
      ∃ cs ∈ cands,
        growWindow transcript targetText opts (cs.1 - 2) cs.2 n
          (min (transcript.length - 1) (cs.1 + opts.maxSegmentWindow) + 1 -
            (cs.1 - 2))
          (cs.1 - 2) [] = some r := by
  intro cands
  induction cands with
  | nil =>
    intro r h
    simp [tryCandidates] at h
  | cons cs rest ih =>
    intro r h
    obtain ⟨c, s⟩ := cs
    simp only [tryCandidates] at h
    split at h
    · next heq =>
      cases h
      exact ⟨(c, s), List.mem_cons_self _ _, heq⟩
    · obtain ⟨cs', hmem, hgw⟩ := ih r h
      exact ⟨cs', List.mem_cons_of_mem _ hmem, hgw⟩

theorem exactStage_strategy {targetText : List Char} {index : TranscriptIndex}
    {r : MatchResult} (h : exactStage targetText index = some r) :
    r.matchStrategy = .exact := by
  simp only [exactStage] at h
  split at h
  · obtain ⟨x, -, hx⟩ := Option.map_eq_some'.mp h
    rw [← hx]
  · cases h

theorem normalizedStage_strategy {targetText : List Char}
    {index : TranscriptIndex} {r : MatchResult}
    (h : normalizedStage targetText index = some r) :
    r.matchStrategy = .normalized := by
  simp only [normalizedStage] at h
  split at h
  · obtain ⟨x, -, hx⟩ := Option.map_eq_some'.mp h
    rw [← hx]
  · cases h

theorem findText_fuzzy_inv {transcript : List Segment} {targetText : List Char}
    {index : TranscriptIndex} {opts : FindOptions} {r : MatchResult}
    (h : findTextInTranscript transcript targetText index opts = some r)
    (hs : r.matchStrategy = .fuzzyNgram) :
    exactStage targetText index = none ∧
    normalizedStage targetText index = none ∧
    fuzzyStage transcript targetText index opts = some r := by
  unfold findTextInTranscript at h
  cases he : exactStage targetText index with
  | some r' =>
    simp only [he] at h
    cases h
    rw [exactStage_strategy he] at hs
    cases hs
  | none =>
    simp only [he] at h
    cases hn : normalizedStage targetText index with
    | some r' =>
      simp only [hn] at h
      cases h
      rw [normalizedStage_strategy hn] at hs
      cases hs
    | none =>
      simp only [hn] at h
      exact ⟨rfl, rfl, h⟩

theorem fuzzyStage_some {transcript : List Segment} {targetText : List Char}
    {index : TranscriptIndex} {opts : FindOptions} {r : MatchResult}
    (h : fuzzyStage transcript targetText index opts = some r) :
    ∃ cs ∈ (sortByScoreDesc (fuzzyScores index.wordIndex
        (fuzzyTargetWords targetText) opts.startIdx)).take 15,
      growWindow transcript targetText opts (cs.1 - 2) cs.2
        (fuzzyTargetWords targetText).length
        (min (transcript.length - 1) (cs.1 + opts.maxSegmentWindow) + 1 -
          (cs.1 - 2))
        (cs.1 - 2) [] = some r := by
  simp only [fuzzyStage] at h
  split at h
  · exact tryCandidates_some _ _ _ _ _ _ h
  · cases h

theorem mem_bumpScore {k : Nat} :
    ∀ {sc : List (Nat × Nat)} {y : Nat × Nat}, y ∈ bumpScore sc k →
      y.1 = k ∨ y ∈ sc := by
  intro sc
  induction sc with
  | nil =>
    intro y hy
    simp only [bumpScore, List.mem_singleton] at hy
    subst hy
    exact Or.inl rfl
  | cons kv rest ih =>
    intro y hy
    obtain ⟨k', v⟩ := kv
    simp only [bumpScore] at hy
    split at hy
    · next hk =>
      rcases List.mem_cons.mp hy with hy | hy
      · subst hy; exact Or.inl hk
      · exact Or.inr (List.mem_cons_of_mem _ hy)
    · rcases List.mem_cons.mp hy with hy | hy
      · subst hy; exact Or.inr (List.mem_cons_self _ _)
      · rcases ih hy with hy' | hy'
        · exact Or.inl hy'
        · exact Or.inr (List.mem_cons_of_mem _ hy')

theorem fuzzyScores_mem_ge (wi : WordIndex) (tw : List (List Char))
    (startIdx : Nat) :
    ∀ y ∈ fuzzyScores wi tw startIdx, startIdx ≤ y.1 := by
  unfold fuzzyScores
  have inner : ∀ (ps : List Nat) (sc : List (Nat × Nat)),
      (∀ y ∈ sc, startIdx ≤ y.1) →
      ∀ y ∈ ps.foldl
        (fun sc segIdx => if startIdx ≤ segIdx then bumpScore sc segIdx else sc)
        sc, startIdx ≤ y.1 := by
    intro ps
    induction ps with
    | nil => intro sc hsc y hy; exact hsc y hy
    | cons i rest ih =>
      intro sc hsc y hy
      simp only [List.foldl_cons] at hy
      apply ih _ ?_ y hy
      intro z hz
      by_cases hi : startIdx ≤ i
      · rw [if_pos hi] at hz
        rcases mem_bumpScore hz with hz' | hz'
        · omega
        · exact hsc z hz'
      · rw [if_neg hi] at hz
        exact hsc z hz
  have outer : ∀ (l : List (List Char)) (sc : List (Nat × Nat)),
      (∀ y ∈ sc, startIdx ≤ y.1) →
      ∀ y ∈ l.foldl (fun scores word =>
        (lookupPosting wi word).foldl
          (fun sc segIdx => if startIdx ≤ segIdx then bumpScore sc segIdx else sc)
          scores) sc, startIdx ≤ y.1 := by
    intro l
    induction l with
    | nil => intro sc hsc y hy; exact hsc y hy
    | cons w rest ih =>
      intro sc hsc y hy
      simp only [List.foldl_cons] at hy
      exact ih _ (inner _ _ hsc) y hy
  exact outer tw [] (by intro y hy; cases hy)

theorem mem_insertByScoreDesc {x : Nat × Nat} :
    ∀ {l : List (Nat × Nat)} {y : Nat × Nat}, y ∈ insertByScoreDesc x l →
      y = x ∨ y ∈ l := by
  intro l
  induction l with
  | nil =>
    intro y hy
    simp only [insertByScoreDesc, List.mem_singleton] at hy
    exact Or.inl hy
  | cons z rest ih =>
    intro y hy
    simp only [insertByScoreDesc] at hy
    split at hy
    · rcases List.mem_cons.mp hy with hy | hy
      · exact Or.inl hy
      · exact Or.inr hy
    · rcases List.mem_cons.mp hy with hy | hy
      · subst hy; exact Or.inr (List.mem_cons_self _ _)
      · rcases ih hy with hy' | hy'
        · exact Or.inl hy'
        · exact Or.inr (List.mem_cons_of_mem _ hy')

theorem mem_sortByScoreDesc {l : List (Nat × Nat)} {y : Nat × Nat}
    (hy : y ∈ sortByScoreDesc l) : y ∈ l := by
  unfold sortByScoreDesc at hy
  have key : ∀ (l' : List (Nat × Nat)) (acc : List (Nat × Nat)),
      y ∈ l'.foldl (fun acc x => insertByScoreDesc x acc) acc →
      y ∈ acc ∨ y ∈ l' := by
    intro l'
    induction l' with
    | nil => intro acc h; exact Or.inl h
    | cons x rest ih =>
      intro acc h
      simp only [List.foldl_cons] at h
      rcases ih _ h with h' | h'
      · rcases mem_insertByScoreDesc h' with h'' | h''
        · exact Or.inr (by rw [h'']; exact List.mem_cons_self _ _)
        · exact Or.inl h''
      · exact Or.inr (List.mem_cons_of_mem _ h')
  rcases key l [] hy with h | h
  · cases h
  · exact h

/-- C3 (amended): every fuzzy window starts at `max(0, candidateIdx - 2)` and
grows up to segment index `candidateIdx + maxSegmentWindow`, so a
`fuzzy-ngram` result spans at most `maxSegmentWindow + 3` segments — not
`maxSegmentWindow`, because the window may begin two segments before its
candidate while growth is capped at `candidateIdx + maxSegmentWindow`. -/
theorem c3_window_span_amended (transcript : List Segment)
    (targetText : List Char) (index : TranscriptIndex) (opts : FindOptions)
    (r : MatchResult)
    (h : findTextInTranscript transcript targetText index opts = some r)
    (hs : r.matchStrategy = .fuzzyNgram) :
    (∃ c, r.startSegmentIdx = c - 2 ∧
      r.endSegmentIdx ≤ c + opts.maxSegmentWindow) ∧
    r.endSegmentIdx + 1 ≤ r.startSegmentIdx + opts.maxSegmentWindow + 3 := by
  obtain ⟨-, -, hf⟩ := findText_fuzzy_inv h hs
  obtain ⟨cs, -, hgw⟩ := fuzzyStage_some hf
  obtain ⟨h1, h2, h3, -, -, -, -⟩ := growWindow_some _ _ _ _ _ _ _ _ _ _ hgw
  have hm1 : min (transcript.length - 1) (cs.1 + opts.maxSegmentWindow) ≤
      cs.1 + opts.maxSegmentWindow := Nat.min_le_right _ _
  constructor
  · exact ⟨cs.1, h1, by omega⟩
  · omega

/-- C3 counterexample: with `maxSegmentWindow = 1`, the fuzzy stage returns a
match spanning 4 segments (candidate segment 2, window started at 0 and grown
to 3), so a fuzzy result is not bounded by `maxSegmentWindow` segments. -/
theorem c3_counterexample :
    findTextInTranscript tFuzzy "Xq yq alpha beta ceta gamma delta".data
      (buildTranscriptIndex tFuzzy) ⟨0, 17/20, 1⟩ =
      some ⟨true, 0, 3, 0, 11, .fuzzyNgram, 1, 3/5⟩ ∧
    3 - 0 + 1 = 4 ∧ ¬((4 : Nat) ≤ 1) := by
  exact ⟨by decide, by decide, by decide⟩

/-- Witness for C3's amended statement on the same concrete run: the span 4
meets the bound `maxSegmentWindow + 3 = 4`. -/
theorem c3_witness :
    (∃ c, (⟨true, 0, 3, 0, 11, .fuzzyNgram, 1, 3/5⟩ : MatchResult).startSegmentIdx = c - 2 ∧
      (⟨true, 0, 3, 0, 11, .fuzzyNgram, 1, 3/5⟩ : MatchResult).endSegmentIdx ≤
        c + (⟨0, 17/20, 1⟩ : FindOptions).maxSegmentWindow) ∧
    (⟨true, 0, 3, 0, 11, .fuzzyNgram, 1, 3/5⟩ : MatchResult).endSegmentIdx + 1 ≤
      (⟨true, 0, 3, 0, 11, .fuzzyNgram, 1, 3/5⟩ : MatchResult).startSegmentIdx +
        (⟨0, 17/20, 1⟩ : FindOptions).maxSegmentWindow + 3 :=
  c3_window_span_amended tFuzzy "Xq yq alpha beta ceta gamma delta".data
    (buildTranscriptIndex tFuzzy) ⟨0, 17/20, 1⟩
    ⟨true, 0, 3, 0, 11, .fuzzyNgram, 1, 3/5⟩ (by decide) (by decide)

theorem findText_none_inv {transcript : List Segment} {targetText : List Char}
    {index : TranscriptIndex} {opts : FindOptions}
    (h : findTextInTranscript transcript targetText index opts = none) :
    exactStage targetText index = none ∧
    normalizedStage targetText index = none ∧
    fuzzyStage transcript targetText index opts = none := by
  unfold findTextInTranscript at h
  cases he : exactStage targetText index with
  | some r' =>
    simp only [he] at h
    simp at h
  | none =>
    simp only [he] at h
    cases hn : normalizedStage targetText index with
    | some r' =>
      simp only [hn] at h
      simp at h
    | none =>
      simp only [hn] at h
      exact ⟨rfl, rfl, h⟩

theorem findText_start_lower {transcript : List Segment}
    {targetText : List Char} {index : TranscriptIndex} {opts : FindOptions}
    {r : MatchResult}
    (he : exactStage targetText index = none)
    (hn : normalizedStage targetText index = none)
    (h : findTextInTranscript transcript targetText index opts = some r) :
    opts.startIdx - 2 ≤ r.startSegmentIdx := by
  unfold findTextInTranscript at h
  simp only [he, hn] at h
  obtain ⟨cs, hmem, hgw⟩ := fuzzyStage_some h
  obtain ⟨h1, -, -, -, -, -, -⟩ := growWindow_some _ _ _ _ _ _ _ _ _ _ hgw
  have hge : opts.startIdx ≤ cs.1 :=
    fuzzyScores_mem_ge _ _ _ cs (mem_sortByScoreDesc (List.take_subset _ _ hmem))
  omega

/-- C5 (amended): when the global cascade fails and the overlap is non-empty,
the constrained re-run's result is accepted under the upper bound
`startSegmentIdx ≤ lastOverlap + 2` alone; the lower bound actually
guaranteed for an accepted match is `max(0, firstOverlap - 4)` (the anchor
restricts candidate votes to indices at or after `firstOverlap - 2`, but
each window then starts two segments earlier), not `firstOverlap - 2`. -/
theorem c5_constrained_bounds_amended (transcript : List Segment)
    (index : TranscriptIndex) (timestampStart timestampEnd : ℚ)
    (text : List Char) (rm : MatchResult)
    (hq : ¬(trimWs text = []))
    (hnr : ¬(segmentsInRange transcript timestampStart timestampEnd = []))
    (h1 : findTextInTranscript transcript (trimWs text) index
      globalFindOptions = none)
    (h2 : findTextInTranscript transcript (trimWs text) index
      (constrainedFindOptions transcript timestampStart timestampEnd) = some rm)
    (hacc : rm.startSegmentIdx ≤
      rangeLastIdx transcript timestampStart timestampEnd + 2) :
    rangeFirstIdx transcript timestampStart timestampEnd - 4 ≤
      rm.startSegmentIdx ∧
    ∃ res, findExactQuoteOne transcript index
        (some (timestampStart, timestampEnd)) text = some res ∧
      res.startSegmentIdx = rm.startSegmentIdx ∧
      res.endSegmentIdx = rm.endSegmentIdx := by
  obtain ⟨he, hn, -⟩ := findText_none_inv h1
  have hlow := findText_start_lower he hn h2
  have hopts : (constrainedFindOptions transcript timestampStart
      timestampEnd).startIdx =
      rangeFirstIdx transcript timestampStart timestampEnd - 2 := rfl
  constructor
  · rw [hopts] at hlow
    omega
  · have heq : findExactQuoteOne transcript index
        (some (timestampStart, timestampEnd)) text =
        some ⟨(segAt transcript rm.startSegmentIdx).start,
          (segAt transcript rm.endSegmentIdx).start +
            (segAt transcript rm.endSegmentIdx).duration,
          trimWs text, rm.startSegmentIdx, rm.endSegmentIdx,
          rm.startCharOffset, rm.endCharOffset,
          decide (rm.matchStrategy ≠ .fuzzyNgram), rm.confidence⟩ := by
      simp only [findExactQuoteOne]
      rw [if_neg hq]
      simp only [h1, h2]
      rw [if_neg hnr, if_pos hacc]
    exact ⟨_, heq, rfl, rfl⟩

/-- C5 counterexample: on `tAnchor` with timestamp range `[45, 55]` the
overlapping segments are 4 and 5, the global cascade fails, and the
constrained re-run returns a fuzzy match starting at segment 0; the
orchestrator accepts it (0 ≤ lastOverlap + 2 = 7) although its start lies
below `firstOverlap - 2 = 2`, refuting the claimed lower bound. -/
theorem c5_counterexample :
    rangeFirstIdx tAnchor 45 55 = 4 ∧
    rangeLastIdx tAnchor 45 55 = 5 ∧
    findTextInTranscript tAnchor "Bcdef".data (buildTranscriptIndex tAnchor)
      globalFindOptions = none ∧
    findTextInTranscript tAnchor "Bcdef".data (buildTranscriptIndex tAnchor)
      (constrainedFindOptions tAnchor 45 55) =
      some ⟨true, 0, 0, 0, 6, .fuzzyNgram, 3/4, 1⟩ ∧
    findExactQuoteOne tAnchor (buildTranscriptIndex tAnchor) (some (45, 55))
      "Bcdef".data = some ⟨0, 10, "Bcdef".data, 0, 0, 0, 6, false, 1⟩ ∧
    ¬(4 - 2 ≤ (0 : Nat)) := by
  refine ⟨by decide, by decide, by decide, by decide, by decide, by decide⟩

/-- Witness for C5's amended statement on the `tAnchor` run: the accepted
constrained match starts at segment 0, within the actual guarantee
`max(0, firstOverlap - 4) = 0`. -/
theorem c5_witness :
    rangeFirstIdx tAnchor 45 55 - 4 ≤
      (⟨true, 0, 0, 0, 6, .fuzzyNgram, 3/4, 1⟩ : MatchResult).startSegmentIdx ∧
    ∃ res, findExactQuoteOne tAnchor (buildTranscriptIndex tAnchor)
        (some (45, 55)) "Bcdef".data = some res ∧
      res.startSegmentIdx =
        (⟨true, 0, 0, 0, 6, .fuzzyNgram, 3/4, 1⟩ : MatchResult).startSegmentIdx ∧
      res.endSegmentIdx =
        (⟨true, 0, 0, 0, 6, .fuzzyNgram, 3/4, 1⟩ : MatchResult).endSegmentIdx :=
  c5_constrained_bounds_amended tAnchor (buildTranscriptIndex tAnchor) 45 55
    "Bcdef".data ⟨true, 0, 0, 0, 6, .fuzzyNgram, 3/4, 1⟩
    (by decide) (by decide) (by decide) (by decide) (by decide)

theorem mem_enum_of_getElem? {t : List Segment} {i : Nat} {seg : Segment}
    (h : t[i]? = some seg) : (i, seg) ∈ t.enum := by
  apply List.mem_iff_getElem?.mpr
  refine ⟨i, ?_⟩
  rw [List.getElem?_enum, h]
  rfl

theorem segmentsInRange_ne_nil {t : List Segment} {ts te : ℚ}
    (h : ∃ seg ∈ t, seg.start ≤ te ∧ ts ≤ seg.start + seg.duration) :
    ¬(segmentsInRange t ts te = []) := by
  obtain ⟨seg, hmem, hov⟩ := h
  obtain ⟨i, hget⟩ := List.mem_iff_getElem?.mp hmem
  intro hc
  have hin : (i, seg) ∈ segmentsInRange t ts te := by
    unfold segmentsInRange
    rw [List.mem_filter]
    exact ⟨mem_enum_of_getElem? hget, by simpa using hov⟩
  rw [hc] at hin
  cases hin

/-- C1 (amended): for a transcript and a quote whose parsed timestamp range
overlaps at least one segment, per-quote resolution returns a non-null
result provided additionally that the quote's trimmed text is non-empty
(an all-whitespace quote is dropped with `null` before any matching); and
when the global cascade fails and the constrained re-run is not accepted,
the result is exactly the guaranteed fallback: the overlapping segments'
texts joined by single spaces, span `[firstOverlap, lastOverlap]`, offsets
from 0 to the last overlapping segment's text length, `confidence = 0.5`
and `hasCompleteSentences = false`. -/
theorem c1_resolution_nonnull_amended (transcript : List Segment)
    (index : TranscriptIndex) (timestampStart timestampEnd : ℚ)
    (text : List Char)
    (hq : ¬(trimWs text = []))
    (hov : ∃ seg ∈ transcript, seg.start ≤ timestampEnd ∧
      timestampStart ≤ seg.start + seg.duration) :
    (∃ res, findExactQuoteOne transcript index
      (some (timestampStart, timestampEnd)) text = some res) ∧
    (findTextInTranscript transcript (trimWs text) index
        globalFindOptions = none →
      (∀ rm ∈ findTextInTranscript transcript (trimWs text) index
          (constrainedFindOptions transcript timestampStart timestampEnd),
        rangeLastIdx transcript timestampStart timestampEnd + 2 <
          rm.startSegmentIdx) →
      findExactQuoteOne transcript index
          (some (timestampStart, timestampEnd)) text =
        some (fallbackResolved transcript timestampStart timestampEnd) ∧
      (fallbackResolved transcript timestampStart timestampEnd).text =
        List.intercalate [' ']
          ((segmentsInRange transcript timestampStart timestampEnd).map
            (fun p => p.2.text)) ∧
      (fallbackResolved transcript timestampStart
        timestampEnd).startSegmentIdx =
        rangeFirstIdx transcript timestampStart timestampEnd ∧
      (fallbackResolved transcript timestampStart timestampEnd).endSegmentIdx =
        rangeLastIdx transcript timestampStart timestampEnd ∧
      (fallbackResolved transcript timestampStart
        timestampEnd).startCharOffset = 0 ∧
      (fallbackResolved transcript timestampStart timestampEnd).endCharOffset =
        ((((segmentsInRange transcript timestampStart timestampEnd).getLastD
          (0, ⟨0, 0, []⟩)).2.text.length : Int)) ∧
      (fallbackResolved transcript timestampStart
        timestampEnd).hasCompleteSentences = false ∧
      (fallbackResolved transcript timestampStart timestampEnd).confidence =
        1/2) := by
  have hnr := segmentsInRange_ne_nil hov
  constructor
  · simp only [findExactQuoteOne]
    rw [if_neg hq]
    split
    · exact ⟨_, rfl⟩
    · rw [if_neg hnr]
      split
      · next rm heq =>
        by_cases hacc : rm.startSegmentIdx ≤
            rangeLastIdx transcript timestampStart timestampEnd + 2
        · rw [if_pos hacc]
          exact ⟨_, rfl⟩
        · rw [if_neg hacc]
          exact ⟨_, rfl⟩
      · exact ⟨_, rfl⟩
  · intro hg hrm
    refine ⟨?_, rfl, rfl, rfl, rfl, rfl, rfl, rfl⟩
    simp only [findExactQuoteOne]
    rw [if_neg hq]
    simp only [hg]
    rw [if_neg hnr]
    split
    · next rm heq =>
      have hneg : ¬(rm.startSegmentIdx ≤
          rangeLastIdx transcript timestampStart timestampEnd + 2) := by
        have := hrm rm (Option.mem_def.mpr heq)
        omega
      rw [if_neg hneg]
    · rfl

/-- C1 counterexample: a non-empty transcript and a parsed, overlapping
timestamp range, yet for the empty quote text the per-quote resolution
returns `none` (the `!quoteText` guard) instead of the claimed non-null
result. -/
theorem c1_counterexample :
    segmentsInRange tHello 0 5 = [(0, ⟨0, 10, "hello world".data⟩)] ∧
    findExactQuoteOne tHello (buildTranscriptIndex tHello)
      (some (0, 5)) [] = none := by
  refine ⟨by decide, by decide⟩

/-- Witness for C1's amended statement: a quote text absent from the
transcript resolves to the guaranteed fallback over segment 0. -/
theorem c1_witness :
    (∃ res, findExactQuoteOne tHello (buildTranscriptIndex tHello)
      (some (0, 5)) "zzz".data = some res) ∧
    (findTextInTranscript tHello (trimWs "zzz".data)
        (buildTranscriptIndex tHello) globalFindOptions = none →
      (∀ rm ∈ findTextInTranscript tHello (trimWs "zzz".data)
          (buildTranscriptIndex tHello) (constrainedFindOptions tHello 0 5),
        rangeLastIdx tHello 0 5 + 2 < rm.startSegmentIdx) →
      findExactQuoteOne tHello (buildTranscriptIndex tHello)
          (some (0, 5)) "zzz".data = some (fallbackResolved tHello 0 5) ∧
      (fallbackResolved tHello 0 5).text =
        List.intercalate [' ']
          ((segmentsInRange tHello 0 5).map (fun p => p.2.text)) ∧
      (fallbackResolved tHello 0 5).startSegmentIdx = rangeFirstIdx tHello 0 5 ∧
      (fallbackResolved tHello 0 5).endSegmentIdx = rangeLastIdx tHello 0 5 ∧
      (fallbackResolved tHello 0 5).startCharOffset = 0 ∧
      (fallbackResolved tHello 0 5).endCharOffset =
        ((((segmentsInRange tHello 0 5).getLastD
          (0, ⟨0, 0, []⟩)).2.text.length : Int)) ∧
      (fallbackResolved tHello 0 5).hasCompleteSentences = false ∧
      (fallbackResolved tHello 0 5).confidence = 1/2) :=
  c1_resolution_nonnull_amended tHello (buildTranscriptIndex tHello) 0 5
    "zzz".data (by decide) (by decide)

theorem boyerMooreSearch_eq {text pattern : List Char} {m : Nat}
    (hocc : occursAt text pattern m)
    (hleast : ∀ j < m, ¬ occursAt text pattern j) :
    boyerMooreSearch text pattern = (m : Int) := by
  rcases boyerMooreSearch_characterization text pattern with
    ⟨m', hbm, hocc', hleast'⟩ | ⟨-, hnone⟩
  · have hmm : m = m' := by
      rcases Nat.lt_trichotomy m m' with h | h | h
      · exact absurd hocc (hleast' m h)
      · exact h
      · exact absurd hocc' (hleast m' h)
    rw [hmm]
    exact hbm
  · exact absurd hocc (hnone m)

theorem buildStep_fullLen (st : BuildState) (k : Nat) (x : Segment) :
    (buildStep st k x).fullTextSpace =
      (if 0 < k then st.fullTextSpace ++ [' '] else st.fullTextSpace) ++
        x.text := by
  unfold buildStep
  split <;> rfl

theorem buildStep_boundaries (st : BuildState) (k : Nat) (x : Segment) :
    (buildStep st k x).segmentBoundaries =
      st.segmentBoundaries ++
        [⟨k, st.fullTextSpace.length + (if 0 < k then 1 else 0),
          st.fullTextSpace.length + (if 0 < k then 1 else 0) + x.text.length,
          x.text, normalizeForMatching x.text⟩] := by
  unfold buildStep
  split
  · next h =>
    simp [List.length_append]
    try omega
  · next h =>
    simp [List.length_append]
    try omega

theorem boundsSpec_cons (t : List Segment) (k pos : Nat) (hk : k < t.length) :
    boundsSpec t k pos =
      ⟨k, pos, pos + (segTextAt t k).length, segTextAt t k,
        normalizeForMatching (segTextAt t k)⟩ ::
        boundsSpec t (k + 1) (pos + (segTextAt t k).length + 1) := by
  conv_lhs => rw [boundsSpec]
  rw [dif_pos hk]

theorem fullTextFrom_nil (t : List Segment) {k : Nat} (hk : ¬(k < t.length)) :
    fullTextFrom t k = [] := by
  rw [fullTextFrom, dif_neg hk]

theorem fullTextFrom_cons (t : List Segment) {k : Nat} (hk : k < t.length) :
    fullTextFrom t k =
      segTextAt t k ++
        (if k + 1 < t.length then ' ' :: fullTextFrom t (k + 1) else []) := by
  conv_lhs => rw [fullTextFrom]
  rw [dif_pos hk]

theorem buildAux_boundaries (t : List Segment) :
    ∀ (fuel k : Nat) (st : BuildState), t.length - k ≤ fuel →
      (buildAux st k (t.drop k)).segmentBoundaries =
        st.segmentBoundaries ++
          boundsSpec t k (st.fullTextSpace.length + if 0 < k then 1 else 0) := by
  intro fuel
  induction fuel with
  | zero =>
    intro k st hf
    have hk : t.length ≤ k := by omega
    rw [List.drop_eq_nil_of_le hk]
    rw [boundsSpec, dif_neg (by omega)]
    simp [buildAux]
  | succ fuel ih =>
    intro k st hf
    by_cases hk : k < t.length
    · rw [List.drop_eq_getElem_cons hk]
      show (buildAux (buildStep st k t[k]) (k + 1)
        (t.drop (k + 1))).segmentBoundaries = _
      rw [ih (k + 1) _ (by omega)]
      rw [buildStep_boundaries]
      rw [List.append_assoc]
      congr 1
      rw [boundsSpec_cons t k _ hk]
      rw [List.singleton_append]
      have hseg : t[k].text = segTextAt t k := by
        unfold segTextAt segAt
        rw [List.getD_eq_getElem t _ hk]
      have hpos : (buildStep st k t[k]).fullTextSpace.length +
          (if 0 < k + 1 then 1 else 0) =
          st.fullTextSpace.length + (if 0 < k then 1 else 0) +
            (segTextAt t k).length + 1 := by
        rw [buildStep_fullLen, hseg]
        by_cases h0 : 0 < k
        · simp [h0, List.length_append]
          try omega
        · simp [h0, List.length_append]
          try omega
      rw [hpos, hseg]
    · rw [List.drop_eq_nil_of_le (by omega)]
      rw [boundsSpec, dif_neg hk]
      simp [buildAux]

theorem buildAux_full (t : List Segment) :
    ∀ (fuel k : Nat) (st : BuildState), t.length - k ≤ fuel →
      (buildAux st k (t.drop k)).fullTextSpace =
        st.fullTextSpace ++
          (if 0 < k ∧ k < t.length then ' ' :: fullTextFrom t k
           else fullTextFrom t k) := by
  intro fuel
  induction fuel with
  | zero =>
    intro k st hf
    have hk : t.length ≤ k := by omega
    rw [List.drop_eq_nil_of_le hk]
    rw [if_neg (by omega)]
    rw [fullTextFrom_nil t (by omega)]
    simp [buildAux]
  | succ fuel ih =>
    intro k st hf
    by_cases hk : k < t.length
    · rw [List.drop_eq_getElem_cons hk]
      show (buildAux (buildStep st k t[k]) (k + 1) (t.drop (k + 1))).fullTextSpace = _
      rw [ih (k + 1) _ (by omega), buildStep_fullLen]
      have hseg : t[k].text = segTextAt t k := by
        unfold segTextAt segAt
        rw [List.getD_eq_getElem t _ hk]
      rw [fullTextFrom_cons t hk]
      by_cases hk1 : k + 1 < t.length
      · by_cases h0 : 0 < k
        · simp [hk, hk1, h0, hseg, List.append_assoc]
        · simp [hk, hk1, h0, hseg, List.append_assoc]
      · have hnil : fullTextFrom t (k + 1) = [] := fullTextFrom_nil t hk1
        by_cases h0 : 0 < k
        · simp [hk, hk1, h0, hseg, hnil, List.append_assoc]
        · simp [hk, hk1, h0, hseg, hnil, List.append_assoc]
    · rw [List.drop_eq_nil_of_le (by omega)]
      rw [if_neg (by omega)]
      rw [fullTextFrom_nil t hk]
      simp [buildAux]

theorem build_boundaries (t : List Segment) :
    (buildTranscriptIndex t).segmentBoundaries = boundsSpec t 0 0 := by
  unfold buildTranscriptIndex
  simp only
  have := buildAux_boundaries t t.length 0 ⟨[], [], [], [], [], []⟩ (by omega)
  simp only [List.drop_zero] at this
  simpa using this

theorem build_full (t : List Segment) :
    (buildTranscriptIndex t).fullTextSpace = fullTextFrom t 0 := by
  unfold buildTranscriptIndex
  simp only
  have := buildAux_full t t.length 0 ⟨[], [], [], [], [], []⟩ (by omega)
  simp only [List.drop_zero] at this
  simpa using this

theorem boundsFrom_boundsSpec (t : List Segment) :
    ∀ (fuel k pos : Nat), k ≤ t.length → t.length - k ≤ fuel →
      BoundsFrom t k pos (boundsSpec t k pos) := by
  intro fuel
  induction fuel with
  | zero =>
    intro k pos hk hf
    have : k = t.length := by omega
    subst this
    rw [boundsSpec, dif_neg (by omega)]
    exact BoundsFrom.nil pos
  | succ fuel ih =>
    intro k pos hk hf
    by_cases hlt : k < t.length
    · rw [boundsSpec, dif_pos hlt]
      exact BoundsFrom.cons k pos _ hlt (ih (k + 1) _ (by omega) (by omega))
    · have : k = t.length := by omega
      subst this
      rw [boundsSpec, dif_neg (by omega)]
      exact BoundsFrom.nil pos

theorem boundsFrom_build (t : List Segment) :
    BoundsFrom t 0 0 (buildTranscriptIndex t).segmentBoundaries := by
  rw [build_boundaries]
  exact boundsFrom_boundsSpec t t.length 0 0 (by omega) (by omega)

theorem startPosSpec_mono (t : List Segment) (a : Nat) :
    ∀ b, a ≤ b → startPosSpec t a ≤ startPosSpec t b := by
  intro b
  induction b with
  | zero =>
    intro h
    have : a = 0 := by omega
    subst this
    exact Nat.le_refl _
  | succ b ih =>
    intro h
    by_cases hab : a ≤ b
    · have h1 : startPosSpec t (b + 1) = startPosSpec t b + (segTextAt t b).length + 1 := rfl
      have h2 := ih hab
      omega
    · have : a = b + 1 := by omega
      subst this
      exact Nat.le_refl _

theorem occursAt_append (pre p suf : List Char) :
    occursAt (pre ++ p ++ suf) p pre.length := by
  intro d hd
  rw [List.append_assoc]
  rw [List.get?_append_right (show pre.length ≤ pre.length + d by omega)]
  rw [Nat.add_sub_cancel_left]
  exact List.get?_append hd

theorem fullTextFrom_decomp (t : List Segment) :
    ∀ k, k < t.length → ∃ pre : List Char,
      pre.length = startPosSpec t k ∧ fullTextFrom t 0 = pre ++ fullTextFrom t k := by
  intro k
  induction k with
  | zero => intro _; exact ⟨[], rfl, rfl⟩
  | succ k ih =>
    intro hk1
    obtain ⟨pre, hlen, hdec⟩ := ih (by omega)
    refine ⟨pre ++ segTextAt t k ++ [' '], ?_, ?_⟩
    · have h1 : startPosSpec t (k + 1) = startPosSpec t k + (segTextAt t k).length + 1 := rfl
      simp [List.length_append, hlen, h1]
      omega
    · rw [hdec, fullTextFrom_cons t (show k < t.length by omega), if_pos hk1]
      simp [List.append_assoc]

theorem mapMatchWalk_adjacent (t : List Segment) (i : Nat) (hi : i + 1 < t.length)
    (hne1 : segTextAt t i ≠ []) (hne2 : segTextAt t (i + 1) ≠ []) :
    ∀ (d k : Nat), k + d = i → ∀ (eAcc : Option (Nat × Int)),
      mapMatchWalk (startPosSpec t i)
          (startPosSpec t i + (segTextAt t i ++ ' ' :: segTextAt t (i + 1)).length)
          none eAcc (boundsSpec t k (startPosSpec t k)) =
        (some (i, 0), some (i + 1, ((segTextAt t (i + 1)).length : Int))) := by
  have hL1 : 0 < (segTextAt t i).length := List.length_pos.mpr hne1
  have hL2 : 0 < (segTextAt t (i + 1)).length := List.length_pos.mpr hne2
  have hme : (segTextAt t i ++ ' ' :: segTextAt t (i + 1)).length =
      (segTextAt t i).length + 1 + (segTextAt t (i + 1)).length := by
    simp [List.length_append]
    omega
  have hsucc : startPosSpec t (i + 1) =
      startPosSpec t i + (segTextAt t i).length + 1 := rfl
  intro d
  induction d with
  | zero =>
    intro k hk eAcc
    have hki : k = i := by omega
    subst hki
    rw [boundsSpec_cons t k _ (show k < t.length by omega)]
    simp only [mapMatchWalk]
    rw [if_neg (show ¬(startPosSpec t k <
        startPosSpec t k + (segTextAt t k ++ ' ' :: segTextAt t (k + 1)).length ∧
        startPosSpec t k + (segTextAt t k ++ ' ' :: segTextAt t (k + 1)).length ≤
          startPosSpec t k + (segTextAt t k).length) by omega)]
    rw [if_pos (show startPosSpec t k + (segTextAt t k).length <
        startPosSpec t k + (segTextAt t k ++ ' ' :: segTextAt t (k + 1)).length
          by omega)]
    rw [if_pos (show True ∧ startPosSpec t k ≤ startPosSpec t k ∧
        startPosSpec t k < startPosSpec t k + (segTextAt t k).length from
      ⟨trivial, Nat.le_refl _, by omega⟩)]
    rw [boundsSpec_cons t (k + 1) _ hi]
    simp only [mapMatchWalk]
    rw [if_pos (show startPosSpec t k + (segTextAt t k).length + 1 <
        startPosSpec t k + (segTextAt t k ++ ' ' :: segTextAt t (k + 1)).length ∧
        startPosSpec t k + (segTextAt t k ++ ' ' :: segTextAt t (k + 1)).length ≤
          startPosSpec t k + (segTextAt t k).length + 1 +
            (segTextAt t (k + 1)).length by omega)]
    simp only [Prod.mk.injEq]
    constructor
    · rw [if_neg (show ¬(some (k,
          ((startPosSpec t k : Int) - (startPosSpec t k : Int))) = none ∧
          startPosSpec t k + (segTextAt t k).length + 1 ≤ startPosSpec t k ∧
          startPosSpec t k < startPosSpec t k + (segTextAt t k).length + 1 +
            (segTextAt t (k + 1)).length) from
        fun h => absurd h.1 (by simp))]
      simp
    · simp only [Option.some.injEq, Prod.mk.injEq]
      refine ⟨trivial, ?_⟩
      push_cast [hme]
      ring
  | succ d ih =>
    intro k hk eAcc
    have hklt : k < t.length := by omega
    have hmono : startPosSpec t (k + 1) ≤ startPosSpec t i :=
      startPosSpec_mono t (k + 1) i (by omega)
    have hksucc : startPosSpec t (k + 1) =
        startPosSpec t k + (segTextAt t k).length + 1 := rfl
    rw [boundsSpec_cons t k _ hklt]
    simp only [mapMatchWalk]
    rw [if_neg (show ¬(startPosSpec t k <
        startPosSpec t i + (segTextAt t i ++ ' ' :: segTextAt t (i + 1)).length ∧
        startPosSpec t i + (segTextAt t i ++ ' ' :: segTextAt t (i + 1)).length ≤
          startPosSpec t k + (segTextAt t k).length) by omega)]
    rw [if_pos (show startPosSpec t k + (segTextAt t k).length <
        startPosSpec t i + (segTextAt t i ++ ' ' :: segTextAt t (i + 1)).length
          by omega)]
    rw [if_neg (show ¬(True ∧ startPosSpec t k ≤ startPosSpec t i ∧
        startPosSpec t i < startPosSpec t k + (segTextAt t k).length) from
      fun h => absurd h.2.2 (by omega))]
    exact ih (k + 1) (by omega) _

/-- C7 (amended): a quote formed as segment `i`'s text, a single space, then
segment `i+1`'s text resolves with strategy `exact`, similarity 1, start
segment `i` and end segment `i+1` - provided both segment texts are non-empty
and the quote has no earlier occurrence in `fullTextSpace` than the one at
segment `i` (Boyer-Moore returns the leftmost occurrence, which an earlier
repetition of the same two-segment phrase would capture instead). -/
theorem c7_adjacent_exact_amended (t : List Segment) (opts : FindOptions)
    (i : Nat) (hi : i + 1 < t.length)
    (hne1 : segTextAt t i ≠ []) (hne2 : segTextAt t (i + 1) ≠ [])
    (hleast : ∀ j < startPosSpec t i,
      ¬ occursAt (fullTextFrom t 0) (segTextAt t i ++ ' ' :: segTextAt t (i + 1)) j) :
    findTextInTranscript t (segTextAt t i ++ ' ' :: segTextAt t (i + 1))
        (buildTranscriptIndex t) opts =
      some ⟨true, i, i + 1, 0, ((segTextAt t (i + 1)).length : Int),
        .exact, 1, 1⟩ := by
  have hocc : occursAt (fullTextFrom t 0)
      (segTextAt t i ++ ' ' :: segTextAt t (i + 1)) (startPosSpec t i) := by
    obtain ⟨pre, hlen, hdec⟩ := fullTextFrom_decomp t i (by omega)
    obtain ⟨suf, hfi⟩ : ∃ suf, fullTextFrom t i =
        (segTextAt t i ++ ' ' :: segTextAt t (i + 1)) ++ suf := by
      refine ⟨(if i + 1 + 1 < t.length then ' ' :: fullTextFrom t (i + 1 + 1)
        else []), ?_⟩
      rw [fullTextFrom_cons t (show i < t.length by omega), if_pos hi,
        fullTextFrom_cons t hi]
      simp [List.append_assoc]
    rw [hdec, hfi, ← hlen, ← List.append_assoc]
    exact occursAt_append pre _ suf
  have hbm : boyerMooreSearch (fullTextFrom t 0)
      (segTextAt t i ++ ' ' :: segTextAt t (i + 1)) = (startPosSpec t i : Int) :=
    boyerMooreSearch_eq hocc hleast
  have hwalk := mapMatchWalk_adjacent t i hi hne1 hne2 i 0 (by omega) none
  have hmap : mapMatchToSegments (startPosSpec t i)
      (segTextAt t i ++ ' ' :: segTextAt t (i + 1)).length
      (buildTranscriptIndex t) =
      some ⟨true, i, i + 1, 0, ((segTextAt t (i + 1)).length : Int)⟩ := by
    unfold mapMatchToSegments
    rw [build_boundaries]
    rw [show boundsSpec t 0 0 = boundsSpec t 0 (startPosSpec t 0) from rfl]
    rw [hwalk]
  have hexact : exactStage (segTextAt t i ++ ' ' :: segTextAt t (i + 1))
      (buildTranscriptIndex t) =
      some ⟨true, i, i + 1, 0, ((segTextAt t (i + 1)).length : Int),
        .exact, 1, 1⟩ := by
    simp only [exactStage]
    rw [build_full, hbm]
    rw [if_pos (show ((startPosSpec t i : Int)) ≠ -1 by omega)]
    rw [show ((startPosSpec t i : Int)).toNat = startPosSpec t i by simp]
    rw [hmap]
    rfl
  simp only [findTextInTranscript, hexact]

/-- C7 counterexample: on the transcript `"a"/"a"/"a"` the quote built from
adjacent segments 1 and 2 (`"a a"`) resolves to segment span `(0, 1)` - the
leftmost occurrence - not to the claimed `(1, 2)`. -/
theorem c7_counterexample :
    (findTextInTranscript tRepeat
        (segTextAt tRepeat 1 ++ ' ' :: segTextAt tRepeat 2)
        (buildTranscriptIndex tRepeat) defaultFindOptions).map
      (fun r => (r.startSegmentIdx, r.endSegmentIdx)) = some (0, 1) := by
  decide

/-- Witness for C7's amended statement on `tWelcome` at `i = 0`: the
hypotheses hold concretely and the two-segment quote resolves exactly. -/
theorem c7_witness :
    (0 + 1 < tWelcome.length ∧ segTextAt tWelcome 0 ≠ [] ∧
      segTextAt tWelcome (0 + 1) ≠ [] ∧
      (∀ j < startPosSpec tWelcome 0,
        ¬ occursAt (fullTextFrom tWelcome 0)
          (segTextAt tWelcome 0 ++ ' ' :: segTextAt tWelcome (0 + 1)) j)) ∧
    findTextInTranscript tWelcome
        (segTextAt tWelcome 0 ++ ' ' :: segTextAt tWelcome (0 + 1))
        (buildTranscriptIndex tWelcome) defaultFindOptions =
      some ⟨true, 0, 0 + 1, 0, ((segTextAt tWelcome (0 + 1)).length : Int),
        .exact, 1, 1⟩ :=
  ⟨⟨by decide, by decide, by decide, by decide⟩,
    c7_adjacent_exact_amended tWelcome defaultFindOptions 0 (by decide)
      (by decide) (by decide) (by decide)⟩

theorem normalizeForMatching_nil : normalizeForMatching [] = [] := by decide

theorem calcNgram_nil_right (a : List Char) :
    calculateNgramSimilarity a [] = 0 := by
  unfold calculateNgramSimilarity
  rw [if_pos (show a.length = 0 ∨ ([] : List Char).length = 0 from Or.inr rfl)]

theorem boyerMooreSearch_nil (text : List Char) :
    boyerMooreSearch text [] = 0 := by
  have h := @boyerMooreSearch_eq text [] 0
    (fun d hd => absurd hd (Nat.not_lt_zero d))
    (fun j hj => absurd hj (Nat.not_lt_zero j))
  simpa using h

theorem mapNormWalk_end_none (mi mEnd : Nat) :
    ∀ (bs : List Boundary) (np : Nat) (sAcc : Option (Nat × Int)), mEnd ≤ np →
      (mapNormWalk mi mEnd np sAcc bs).2 = none := by
  intro bs
  induction bs with
  | nil =>
    intro np sAcc h
    simp [mapNormWalk]
  | cons b rest ih =>
    intro np sAcc h
    simp only [mapNormWalk]
    rw [if_neg (show ¬(np < mEnd ∧ mEnd ≤ np + b.normalizedText.length)
      by omega)]
    exact ih _ _ (by omega)

theorem growWindow_eq_start (transcript : List Segment) (targetText : List Char)
    (opts : FindOptions) (ws score n : Nat) :
    ∀ (fuel : Nat) (r : MatchResult),
      growWindow transcript targetText opts ws score n fuel ws [] = some r →
      r.endSegmentIdx = ws →
      opts.minSimilarity ≤ calculateNgramSimilarity
        (normalizeForMatching targetText)
        (normalizeForMatching (segTextAt transcript ws)) := by
  intro fuel r h hend
  cases fuel with
  | zero => simp [growWindow] at h
  | succ fuel =>
    simp only [growWindow] at h
    rw [if_neg (lt_irrefl ws)] at h
    rw [List.nil_append] at h
    split at h
    · next hsim =>
      cases h
      exact hsim
    · obtain ⟨-, h2, -, -, -, -, -⟩ :=
        growWindow_some transcript targetText opts ws score n fuel (ws + 1) _ r h
      omega

theorem mapMatchWalk_invariant (t : List Segment) (ms me : Nat) (hlt : ms < me) :
    ∀ {k pos : Nat} {bs : List Boundary}, BoundsFrom t k pos bs →
    ∀ (sAcc eAcc : Option (Nat × Int)),
      (∀ si so, sAcc = some (si, so) → ∃ ei eo, eAcc = some (ei, eo) ∧
        0 ≤ so ∧ so ≤ ((segTextAt t si).length : Int) ∧
        0 ≤ eo ∧ eo ≤ ((segTextAt t ei).length : Int) ∧
        si ≤ ei ∧ (si = ei → so < eo) ∧ ei < k) →
      ∀ (si ei : Nat) (so eo : Int),
        mapMatchWalk ms me sAcc eAcc bs = (some (si, so), some (ei, eo)) →
        0 ≤ so ∧ so ≤ ((segTextAt t si).length : Int) ∧
        0 ≤ eo ∧ eo ≤ ((segTextAt t ei).length : Int) ∧
        si ≤ ei ∧ (si = ei → so < eo) := by
  intro k pos bs hb
  induction hb with
  | nil pos =>
    intro sAcc eAcc hinv si ei so eo h
    simp only [mapMatchWalk] at h
    rw [Prod.mk.injEq] at h
    obtain ⟨h1, h2⟩ := h
    obtain ⟨ei', eo', heq, hs1, hs2, he1, he2, hle, hlt2, -⟩ := hinv si so h1
    rw [h2] at heq
    injection heq with heq'
    injection heq' with ha hb
    subst ha
    subst hb
    exact ⟨hs1, hs2, he1, he2, hle, hlt2⟩
  | cons k pos rest hk hrest ih =>
    intro sAcc eAcc hinv si ei so eo h
    simp only [mapMatchWalk] at h
    by_cases hbrk : pos < me ∧ me ≤ pos + (segTextAt t k).length
    · rw [if_pos hbrk] at h
      rw [Prod.mk.injEq] at h
      obtain ⟨h1, h2⟩ := h
      injection h2 with h2'
      injection h2' with hei heo
      subst hei
      subst heo
      by_cases hset : sAcc = none ∧ pos ≤ ms ∧ ms < pos + (segTextAt t k).length
      · rw [if_pos hset] at h1
        injection h1 with h1'
        injection h1' with hsi hso
        subst hsi
        subst hso
        obtain ⟨-, hs2, hs3⟩ := hset
        refine ⟨by omega, by omega, by omega, by omega, le_refl _, fun _ => by omega⟩
      · rw [if_neg hset] at h1
        obtain ⟨ei', eo', heq, hs1, hs2, he1, he2, hle, hlt2, hei'⟩ :=
          hinv si so h1
        exact ⟨hs1, hs2, by omega, by omega, by omega, fun hcon => by omega⟩
    · rw [if_neg hbrk] at h
      by_cases hpass : pos + (segTextAt t k).length < me
      · rw [if_pos hpass] at h
        apply ih _ _ ?_ si ei so eo h
        intro si' so' hs'
        by_cases hset : sAcc = none ∧ pos ≤ ms ∧ ms < pos + (segTextAt t k).length
        · rw [if_pos hset] at hs'
          injection hs' with hs''
          injection hs'' with hsi hso
          subst hsi
          subst hso
          obtain ⟨-, hs2, hs3⟩ := hset
          exact ⟨k, ((segTextAt t k).length : Int), rfl, by omega, by omega,
            by omega, by omega, le_refl _, fun _ => by omega, by omega⟩
        · rw [if_neg hset] at hs'
          obtain ⟨ei', eo', heq, hs1, hs2, he1, he2, hle, hlt2, hei'⟩ :=
            hinv si' so' hs'
          exact ⟨k, ((segTextAt t k).length : Int), rfl, hs1, hs2, by omega,
            by omega, by omega, fun hcon => by omega, by omega⟩
      · rw [if_neg hpass] at h
        apply ih _ _ ?_ si ei so eo h
        intro si' so' hs'
        by_cases hset : sAcc = none ∧ pos ≤ ms ∧ ms < pos + (segTextAt t k).length
        · exfalso
          obtain ⟨-, hset2, hset3⟩ := hset
          omega
        · rw [if_neg hset] at hs'
          obtain ⟨ei', eo', heq, hs1, hs2, he1, he2, hle, hlt2, hei'⟩ :=
            hinv si' so' hs'
          exact ⟨ei', eo', heq, hs1, hs2, he1, he2, hle, hlt2, by omega⟩

theorem mapMatchToSegments_invariant (t : List Segment) (ms mlen : Nat)
    (h0 : 0 < mlen) (r : SegSpan)
    (h : mapMatchToSegments ms mlen (buildTranscriptIndex t) = some r) :
    0 ≤ r.startCharOffset ∧
    r.startCharOffset ≤ ((segTextAt t r.startSegmentIdx).length : Int) ∧
    0 ≤ r.endCharOffset ∧
    r.endCharOffset ≤ ((segTextAt t r.endSegmentIdx).length : Int) ∧
    r.startSegmentIdx ≤ r.endSegmentIdx ∧
    (r.startSegmentIdx = r.endSegmentIdx →
      r.startCharOffset < r.endCharOffset) := by
  unfold mapMatchToSegments at h
  rcases hw : mapMatchWalk ms (ms + mlen) none none
      (buildTranscriptIndex t).segmentBoundaries with ⟨s, e⟩
  rw [hw] at h
  rcases s with - | ⟨si, so⟩
  · rcases e with - | ⟨ei, eo⟩ <;> cases h
  · rcases e with - | ⟨ei, eo⟩
    · cases h
    · cases h
      exact mapMatchWalk_invariant t ms (ms + mlen) (by omega)
        (boundsFrom_build t) none none
        (fun si so hc => Option.noConfusion hc) si ei so eo hw

theorem mapNormWalk_invariant (t : List Segment) (mi mEnd : Nat)
    (hlt : mi < mEnd) :
    ∀ {k pos : Nat} {bs : List Boundary}, BoundsFrom t k pos bs →
    ∀ (np : Nat) (sAcc : Option (Nat × Int)),
      (∀ si so, sAcc = some (si, so) → 0 ≤ so ∧
        so ≤ ((segTextAt t si).length : Int) ∧ si < k) →
      ∀ (si ei : Nat) (so eo : Int),
        mapNormWalk mi mEnd np sAcc bs = (some (si, so), some (ei, eo)) →
        0 ≤ so ∧ so ≤ ((segTextAt t si).length : Int) ∧
        0 ≤ eo ∧ eo ≤ ((segTextAt t ei).length : Int) ∧
        si ≤ ei ∧ (si = ei → so < eo) := by
  intro k pos bs hb
  induction hb with
  | nil pos =>
    intro np sAcc hinv si ei so eo h
    simp only [mapNormWalk] at h
    rw [Prod.mk.injEq] at h
    cases h.2
  | cons k pos rest hk hrest ih =>
    intro np sAcc hinv si ei so eo h
    simp only [mapNormWalk] at h
    have hLnil : (segTextAt t k).length = 0 →
        (normalizeForMatching (segTextAt t k)).length = 0 := by
      intro h0
      rw [List.length_eq_zero.mp h0, normalizeForMatching_nil]
      rfl
    by_cases hbrk : np < mEnd ∧
        mEnd ≤ np + (normalizeForMatching (segTextAt t k)).length
    · rw [if_pos hbrk] at h
      rw [Prod.mk.injEq] at h
      obtain ⟨h1, h2⟩ := h
      have hL1 : 0 < (segTextAt t k).length := by
        by_contra h0
        have := hLnil (by omega)
        omega
      injection h2 with h2'
      injection h2' with hei heo
      subst hei
      subst heo
      by_cases hset : sAcc = none ∧ np ≤ mi ∧
          mi < np + (normalizeForMatching (segTextAt t k)).length
      · rw [if_pos hset] at h1
        injection h1 with h1'
        injection h1' with hsi hso
        subst hsi
        subst hso
        obtain ⟨-, hset2, hset3⟩ := hset
        refine ⟨by omega, by omega, by omega, by omega, le_refl _,
          fun _ => by omega⟩
      · rw [if_neg hset] at h1
        obtain ⟨hs1, hs2, hsik⟩ := hinv si so h1
        exact ⟨hs1, hs2, by omega, by omega, by omega, fun hcon => by omega⟩
    · rw [if_neg hbrk] at h
      apply ih _ _ ?_ si ei so eo h
      intro si' so' hs'
      by_cases hset : sAcc = none ∧ np ≤ mi ∧
          mi < np + (normalizeForMatching (segTextAt t k)).length
      · rw [if_pos hset] at hs'
        injection hs' with hs''
        injection hs'' with hsi hso
        subst hsi
        subst hso
        obtain ⟨-, hset2, hset3⟩ := hset
        have hL1 : 0 < (segTextAt t k).length := by
          by_contra h0
          have := hLnil (by omega)
          omega
        exact ⟨by omega, by omega, by omega⟩
      · rw [if_neg hset] at hs'
        obtain ⟨a, b, c⟩ := hinv si' so' hs'
        exact ⟨a, b, by omega⟩

theorem mapNormToSegments_invariant (t : List Segment) (mi : Nat)
    (ntarget : List Char) (hnt : ntarget ≠ []) (r : SegSpan)
    (h : mapNormalizedMatchToSegments mi ntarget (buildTranscriptIndex t) =
      some r) :
    0 ≤ r.startCharOffset ∧
    r.startCharOffset ≤ ((segTextAt t r.startSegmentIdx).length : Int) ∧
    0 ≤ r.endCharOffset ∧
    r.endCharOffset ≤ ((segTextAt t r.endSegmentIdx).length : Int) ∧
    r.startSegmentIdx ≤ r.endSegmentIdx ∧
    (r.startSegmentIdx = r.endSegmentIdx →
      r.startCharOffset < r.endCharOffset) := by
  unfold mapNormalizedMatchToSegments at h
  rcases hw : mapNormWalk mi (mi + ntarget.length) 0 none
      (buildTranscriptIndex t).segmentBoundaries with ⟨s, e⟩
  rw [hw] at h
  rcases s with - | ⟨si, so⟩
  · rcases e with - | ⟨ei, eo⟩ <;> cases h
  · rcases e with - | ⟨ei, eo⟩
    · cases h
    · cases h
      have hpos : 0 < ntarget.length := List.length_pos.mpr hnt
      exact mapNormWalk_invariant t mi (mi + ntarget.length) (by omega)
        (boundsFrom_build t) 0 none
        (fun si so hc => Option.noConfusion hc) si ei so eo hw

/-- C8: for every transcript, every non-empty quote text and every option set
with a positive similarity threshold (every call site passes 0.75, 0.8 or
0.85, and the default is 0.85), a returned match satisfies
`0 <= startCharOffset <= |startSegment.text|`,
`0 <= endCharOffset <= |endSegment.text|`,
`startSegmentIdx <= endSegmentIdx`, and a single-segment match has
`startCharOffset < endCharOffset`. -/
theorem c8_offsets_invariant (t : List Segment) (targetText : List Char)
    (opts : FindOptions) (r : MatchResult)
    (hq : targetText ≠ []) (hms : 0 < opts.minSimilarity)
    (h : findTextInTranscript t targetText (buildTranscriptIndex t) opts =
      some r) :
    0 ≤ r.startCharOffset ∧
    r.startCharOffset ≤ ((segTextAt t r.startSegmentIdx).length : Int) ∧
    0 ≤ r.endCharOffset ∧
    r.endCharOffset ≤ ((segTextAt t r.endSegmentIdx).length : Int) ∧
    r.startSegmentIdx ≤ r.endSegmentIdx ∧
    (r.startSegmentIdx = r.endSegmentIdx →
      r.startCharOffset < r.endCharOffset) := by
  unfold findTextInTranscript at h
  cases he : exactStage targetText (buildTranscriptIndex t) with
  | some r' =>
    rw [he] at h
    cases h
    simp only [exactStage] at he
    split at he
    · obtain ⟨r0, hr0, hf⟩ := Option.map_eq_some'.mp he
      have hinv := mapMatchToSegments_invariant t _ targetText.length
        (List.length_pos.mpr hq) r0 hr0
      rw [← hf]
      exact hinv
    · cases he
  | none =>
    rw [he] at h
    cases hn : normalizedStage targetText (buildTranscriptIndex t) with
    | some r' =>
      rw [hn] at h
      cases h
      simp only [normalizedStage] at hn
      split at hn
      · obtain ⟨r0, hr0, hf⟩ := Option.map_eq_some'.mp hn
        by_cases hnt : normalizeWhitespace targetText = []
        · exfalso
          rw [hnt, boyerMooreSearch_nil, Int.toNat_zero] at hr0
          unfold mapNormalizedMatchToSegments at hr0
          rcases hw : mapNormWalk 0 (0 + ([] : List Char).length) 0 none
              (buildTranscriptIndex t).segmentBoundaries with ⟨s, e⟩
          have hend := mapNormWalk_end_none 0 (0 + ([] : List Char).length)
            (buildTranscriptIndex t).segmentBoundaries 0 none (by simp)
          rw [hw] at hr0 hend
          simp only at hend
          subst hend
          rcases s with - | ⟨a, b⟩ <;> cases hr0
        · have hinv := mapNormToSegments_invariant t _
            (normalizeWhitespace targetText) hnt r0 hr0
          rw [← hf]
          exact hinv
      · cases hn
    | none =>
      rw [hn] at h
      obtain ⟨cs, hmem, hgw⟩ := fuzzyStage_some h
      obtain ⟨h1, h2, h3, h4, h5, h6, h7⟩ :=
        growWindow_some t targetText opts (cs.1 - 2) cs.2
          (fuzzyTargetWords targetText).length _ _ _ r hgw
      refine ⟨?_, ?_, ?_, ?_, ?_, ?_⟩
      · rw [h5]
      · rw [h5]
        exact Int.natCast_nonneg _
      · rw [h6]
        exact Int.natCast_nonneg _
      · rw [h6]
      · rw [h1]
        exact h2
      · intro heq
        rw [h5, h6]
        have hws : r.endSegmentIdx = cs.1 - 2 := by rw [← heq, h1]
        have hsim := growWindow_eq_start t targetText opts (cs.1 - 2) cs.2
          (fuzzyTargetWords targetText).length _ r hgw hws
        rw [hws]
        by_contra hlen0
        have hnil : segTextAt t (cs.1 - 2) = [] := by
          rw [← List.length_eq_zero]
          omega
        rw [hnil, normalizeForMatching_nil, calcNgram_nil_right] at hsim
        exact absurd (lt_of_lt_of_le hms hsim) (lt_irrefl 0)

/-- Witness for C8 on a concrete run: the exact match of `"hello"` in
`tHello` satisfies every offset invariant. -/
theorem c8_witness :
    ("hello".data ≠ [] ∧ 0 < defaultFindOptions.minSimilarity ∧
      findTextInTranscript tHello "hello".data (buildTranscriptIndex tHello)
        defaultFindOptions = some ⟨true, 0, 0, 0, 5, .exact, 1, 1⟩) ∧
    (0 ≤ (⟨true, 0, 0, 0, 5, .exact, 1, 1⟩ : MatchResult).startCharOffset ∧
      (⟨true, 0, 0, 0, 5, .exact, 1, 1⟩ : MatchResult).startCharOffset ≤
        ((segTextAt tHello (⟨true, 0, 0, 0, 5, .exact, 1, 1⟩ :
          MatchResult).startSegmentIdx).length : Int) ∧
      0 ≤ (⟨true, 0, 0, 0, 5, .exact, 1, 1⟩ : MatchResult).endCharOffset ∧
      (⟨true, 0, 0, 0, 5, .exact, 1, 1⟩ : MatchResult).endCharOffset ≤
        ((segTextAt tHello (⟨true, 0, 0, 0, 5, .exact, 1, 1⟩ :
          MatchResult).endSegmentIdx).length : Int) ∧
      (⟨true, 0, 0, 0, 5, .exact, 1, 1⟩ : MatchResult).startSegmentIdx ≤
        (⟨true, 0, 0, 0, 5, .exact, 1, 1⟩ : MatchResult).endSegmentIdx ∧
      ((⟨true, 0, 0, 0, 5, .exact, 1, 1⟩ : MatchResult).startSegmentIdx =
        (⟨true, 0, 0, 0, 5, .exact, 1, 1⟩ : MatchResult).endSegmentIdx →
        (⟨true, 0, 0, 0, 5, .exact, 1, 1⟩ : MatchResult).startCharOffset <
          (⟨true, 0, 0, 0, 5, .exact, 1, 1⟩ : MatchResult).endCharOffset)) :=
  ⟨⟨by decide, by decide, by decide⟩,
    c8_offsets_invariant tHello "hello".data defaultFindOptions
      ⟨true, 0, 0, 0, 5, .exact, 1, 1⟩ (by decide) (by decide) (by decide)⟩
